import Mathlib

/-!
Verification of the ASN.1 DER/BER codec in
`src/python/ct/crypto/my_asn1/types.py`.

Byte strings are modelled as `List Nat` (each entry a byte value `< 256`),
integers as `Int` (Python's unbounded integers).  Python's exceptions are
modelled by `Except Err`:

* `Err.malformed`   — `error.ASN1Error` ("malformed encoding"),
* `Err.tagMismatch` — `error.ASN1TagError` (wire tag did not match),
* `Err.typeErr`     — Python `TypeError`,
* `Err.valueErr`    — Python `ValueError`,
* `Err.keyErr`      — Python `KeyError`.

The error module itself is an external collaborator of the source file; the
two ASN.1 error kinds are kept distinguishable here exactly as the source
relies on (`Sequence._decode_value` catches `ASN1TagError` only).
-/

/-- Python exception kinds raised by the codec, kept distinguishable the way
the source distinguishes them when catching. -/
inductive Err where
  | malformed
  | tagMismatch
  | typeErr
  | valueErr
  | keyErr
deriving DecidableEq, Repr

/-- Modelled from the spec: the tag collaborator (`ct.crypto.my_asn1.tag`,
not part of the sources) exposes a class + constructed-bit + number triple
with equality.  `tagCls` is 0 (universal), 1 (application), 2
(context-specific) or 3 (private); `constructed` is the encoding bit. -/
structure Tag where
  number : Nat
  tagCls : Nat
  constructed : Bool
deriving DecidableEq, Repr

/-- Modelled from the spec: the single-byte wire form of a tag
(class in bits 7-6, constructed flag in bit 5, number in bits 4-0; the
multi-byte form for numbers ≥ 31 is not exercised by this system's
schemas). -/
def Tag.value (t : Tag) : List Nat :=
  [t.tagCls * 64 + (if t.constructed then 32 else 0) + t.number]

/-- Modelled from the spec: `tag.Tag.read` reads one tag from the front of a
buffer, failing on an empty buffer; the multi-byte number form (low five
bits all set) is not modelled. -/
def tagRead : List Nat → Except Err (Tag × List Nat)
  | [] => .error .malformed
  | b :: rest =>
    if b % 32 = 31 then .error .malformed
    else .ok (⟨b % 32, b / 64, decide (32 ≤ b % 64)⟩, rest)

/-- The little-endian byte list produced by the `while value != 0 and
value != -1` loop of `encode_int` (types.py lines 53-55); Python's `& 0xff`
and `>>= 8` are floor-mod and floor-division by 256. -/
def intLoopBytes (v : Int) : List Nat :=
  if v = 0 ∨ v = -1 then []
  else (Int.fmod v 256).toNat :: intLoopBytes (Int.fdiv v 256)
termination_by v.natAbs
decreasing_by
  rename_i hv
  have hid : 256 * Int.fdiv v 256 + Int.fmod v 256 = v := Int.fdiv_add_fmod v 256
  have hr0 : 0 ≤ Int.fmod v 256 := Int.fmod_nonneg' v (by norm_num)
  have hr1 : Int.fmod v 256 < 256 := Int.fmod_lt_of_pos v (by norm_num)
  push_neg at hv
  omega

/-- The body of `encode_int` (types.py lines 46-68) after the
unsigned-negative guard: minimal two's-complement (signed) or minimal
unsigned big-endian bytes. -/
def encode_int_body (value : Int) (signed : Bool) : List Nat :=
  if value = 0 then [0x00]
  else if value = -1 then [0xff]
  else
    let le := intLoopBytes value
    let le' :=
      if signed then
        if value < 0 ∧ le.getLastD 0 ≤ 127 then le ++ [0xff]
        else if 0 < value ∧ 127 < le.getLastD 0 then le ++ [0x00]
        else le
      else le
    le'.reverse

/-- Models `encode_int` (types.py lines 32-68): raises `ValueError` when asked to
encode a negative value unsigned, otherwise produces the minimal encoding. -/
def encode_int (value : Int) (signed : Bool) : Except Err (List Nat) :=
  if signed = false ∧ value < 0 then .error .valueErr
  else .ok (encode_int_body value signed)

/-- Models `decode_int` (types.py lines 71-108).  Note there is no strict flag:
the non-minimality rejections are unconditional. -/
def decode_int (buf : List Nat) (signed : Bool) : Except Err Int :=
  match buf with
  | [] => .error .malformed
  | b0 :: rest =>
    if rest ≠ [] ∧ b0 = 0 ∧ rest.headD 0 < 128 then .error .malformed
    else if rest ≠ [] ∧ signed = true ∧ b0 = 0xff ∧ 128 ≤ rest.headD 0 then
      .error .malformed
    else
      let leading : Int := if signed = true ∧ 127 < b0 then (b0 : Int) - 256 else (b0 : Int)
      .ok (rest.foldl (fun acc b => acc * 256 + (b : Int)) leading)

/-- Models `encode_length` (types.py lines 120-132): single byte for lengths up to
127, otherwise `0x80 | len(encoded)` followed by the minimal unsigned
encoding.  (Python's `chr` requires its argument to be below 256; every
theorem below only uses lengths where that precondition holds.) -/
def encode_length (length : Nat) : List Nat :=
  if length ≤ 127 then [length]
  else
    let encoded := encode_int_body (length : Int) false
    (0x80 ||| encoded.length) :: encoded

/-- Models `read_length` (types.py lines 135-156): consume a length prefix,
returning the length and the remaining bytes. -/
def read_length (buf : List Nat) : Except Err (Nat × List Nat) :=
  match buf with
  | [] => .error .malformed
  | b0 :: rest =>
    if b0 ≤ 127 then .ok (b0, rest)
    else
      let n := b0 % 128
      if rest.length < n then .error .malformed
      else (decode_int (rest.take n) false).map fun i => (i.toNat, rest.drop n)

/-!
### The schema universe

A deep embedding of the schema kinds of types.py that the claims quantify
over: the scalar kinds (`Boolean`, `Integer`, the `ASN1String` family which
shares one opaque-bytes representation and differs only in its universal tag
number, `BitString`), the homogeneous list kinds (`SequenceOf`, `SetOf`),
and the `explicit`/`implicit` tagging operators that derive a re-tagged
type.  The untagged kinds (`Choice`, `Any`) and the record kind (`Sequence`)
are modelled separately below, parameterised over this universe.
-/

inductive Schema where
  | boolean
  | integer
  | asn1String (number : Nat)
  | bitString
  | seqOf (elem : Schema)
  | setOf (elem : Schema)
  | explicitTag (number : Nat) (tagCls : Nat) (inner : Schema)
  | implicitTag (number : Nat) (tagCls : Nat) (inner : Schema)
deriving DecidableEq, Repr

/-- Node count, used as a termination measure. -/
def Schema.size : Schema → Nat
  | .boolean | .integer | .asn1String _ | .bitString => 1
  | .seqOf e | .setOf e => e.size + 1
  | .explicitTag _ _ inner | .implicitTag _ _ inner => inner.size + 1

/-- The `tags` attribute of each class: the universal base tag assigned by
the `Universal` decorator (types.py lines 521, 551, 597-651, 996, 1016),
extended by `Explicit.__call__` (append a constructed tag, lines 236-248)
or rewritten by `Implicit.__call__` (replace the outermost tag keeping its
encoding bit, lines 286-307).  Innermost tag first, as in the source. -/
def Schema.tags : Schema → List Tag
  | .boolean => [⟨1, 0, false⟩]
  | .integer => [⟨2, 0, false⟩]
  | .asn1String n => [⟨n, 0, false⟩]
  | .bitString => [⟨3, 0, false⟩]
  | .seqOf _ => [⟨16, 0, true⟩]
  | .setOf _ => [⟨17, 0, true⟩]
  | .explicitTag n c inner => inner.tags ++ [⟨n, c, true⟩]
  | .implicitTag n c inner =>
    inner.tags.dropLast ++ [⟨n, c, (inner.tags.getLastD ⟨0, 0, false⟩).constructed⟩]

/-- Semantic values: booleans, unbounded integers, raw byte strings,
bit strings (a string of 0/1 symbols in the source, a `List Bool` here), and
element lists for the repeated kinds. -/
inductive Value where
  | bool (b : Bool)
  | int (i : Int)
  | str (s : List Nat)
  | bits (s : List Bool)
  | list (elems : List Value)
deriving Repr

/-- The predicate `v.conforms s` says the semantic value `v` is constructible for schema
`s` (the kind matches, string bytes are bytes, and list elements conform to
the element schema); tagging operators do not change the value shape. -/
def Value.conforms : Value → Schema → Bool
  | .bool _, .boolean => true
  | .int _, .integer => true
  | .str s, .asn1String _ => s.all (· < 256)
  | .bits _, .bitString => true
  | .list vs, .seqOf e => vs.all (·.conforms e)
  | .list vs, .setOf e => vs.all (·.conforms e)
  | v, .explicitTag _ _ inner => v.conforms inner
  | v, .implicitTag _ _ inner => v.conforms inner
  | _, _ => false

/-- Python's `<=` on byte strings: lexicographic, with a proper prefix
smaller than any extension.  This is the order `SetOf._encode_value`'s
`ret.sort()` sorts by. -/
def strLe : List Nat → List Nat → Bool
  | [], _ => true
  | _ :: _, [] => false
  | a :: as, b :: bs => if a < b then true else if b < a then false else strLe as bs

/-- The order `strLe` viewed as a relation, for use with `List.insertionSort`. -/
def strLeP (a b : List Nat) : Prop := strLe a b = true

instance : DecidableRel strLeP := fun a b => by
  unfold strLeP; infer_instance

/-- Models `Boolean._encode_value` (types.py lines 531-532). -/
def booleanEncodeValue (b : Bool) : List Nat := if b then [0xff] else [0x00]

/-- The value of the byte formed from up to eight bits, high bit first:
`int(padded_bits[i:i+8], 2)` in `BitString._encode_value`. -/
def byteOfBits (bs : List Bool) : Nat :=
  bs.foldl (fun acc b => 2 * acc + (if b then 1 else 0)) 0

/-- Pack a bit list whose length is a multiple of eight into bytes, eight
bits per byte, high bit first (the loop of `BitString._encode_value`). -/
def packBits (bs : List Bool) : List Nat :=
  if bs = [] then [] else byteOfBits (bs.take 8) :: packBits (bs.drop 8)
termination_by bs.length
decreasing_by
  rename_i h
  have : bs.length ≠ 0 := fun hl => h (List.eq_nil_of_length_eq_zero hl)
  simp [List.length_drop]; omega

/-- Models `BitString._encode_value` (types.py lines 663-669): one pad-count byte,
then the bits zero-padded on the right to a byte boundary and packed. -/
def bitStringEncodeValue (bs : List Bool) : List Nat :=
  let pad := (8 - bs.length % 8) % 8
  pad :: packBits (bs ++ List.replicate pad false)

/-- The wrapping loop of `Abstract.encode` (types.py lines 425-429): for
each tag, innermost first, prepend the tag bytes and the encoded length of
the current value. -/
def wrapTags (tags : List Tag) (content : List Nat) : List Nat :=
  tags.foldl (fun acc t => t.value ++ encode_length acc.length ++ acc) content

mutual

/-- Models `encode` of a value against a schema: the kind's content bytes wrapped
in the schema's tag list (types.py lines 419-429).  Values that do not
conform to the schema (where Python would raise) produce junk; every
theorem below assumes `conforms`. -/
def encodeValue (s : Schema) (v : Value) : List Nat :=
  wrapTags s.tags (encodeContent s v)
termination_by (Schema.size s, 1)

/-- The kind-specific `_encode_value`: Boolean bytes, minimal
two's-complement integers, raw strings, padded bit strings, concatenated
element encodings (`SequenceOf`, types.py lines 999-1001), and the
sorted concatenation for `SetOf` (types.py lines 1020-1023; `list.sort` and
insertion sort agree because both are stable and the order is total). -/
def encodeContent (s : Schema) (v : Value) : List Nat :=
  match s, v with
  | .boolean, .bool b => booleanEncodeValue b
  | .integer, .int i => encode_int_body i true
  | .asn1String _, .str bytes => bytes
  | .bitString, .bits bs => bitStringEncodeValue bs
  | .seqOf e, .list vs => (vs.map fun x => encodeValue e x).flatten
  | .setOf e, .list vs =>
    (List.insertionSort strLeP (vs.map fun x => encodeValue e x)).flatten
  | .explicitTag _ _ inner, v => encodeContent inner v
  | .implicitTag _ _ inner, v => encodeContent inner v
  | _, _ => []
termination_by (Schema.size s, 0)
decreasing_by
  all_goals simp [Schema.size]
  all_goals omega

end

/-- Models `Boolean._decode_value` (types.py lines 538-548): exactly one content
byte; in strict mode only `0xFF`/`0x00` are accepted; the value is false
exactly for a zero byte. -/
def booleanDecodeValue (buf : List Nat) (strict : Bool) : Except Err Bool :=
  if buf.length ≠ 1 then .error .malformed
  else if strict = true ∧ buf.headD 0 ≠ 0xff ∧ buf.headD 0 ≠ 0x00 then .error .malformed
  else .ok (decide (buf.headD 0 ≠ 0))

/-- The eight bits of a byte, high bit first (`format(b, "08b")` in
`BitString._decode_value`). -/
def byteToBits (b : Nat) : List Bool :=
  (List.range 8).map fun i => b.testBit (7 - i)

/-- Models `"".join(format(b, "08b") for b in int_bytes[1:])`. -/
def unpackBits (bytes : List Nat) : List Bool :=
  (bytes.map byteToBits).flatten

/-- Models `BitString._decode_value` (types.py lines 684-699): reject an empty
buffer, a pad count above 7, a non-zero pad count with no content bytes, or
any padding bit set; otherwise strip the padding.  The strict flag is
accepted and ignored, as in the source. -/
def bitStringDecodeValue (buf : List Nat) (_strict : Bool) : Except Err (List Bool) :=
  match buf with
  | [] => .error .malformed
  | pad :: bytes =>
    if 7 < pad then .error .malformed
    else
      let ret := unpackBits bytes
      if pad ≠ 0 then
        if ret = [] ∨ (ret.drop (ret.length - pad)).any (· = true) then .error .malformed
        else .ok (ret.take (ret.length - pad))
      else .ok ret

/-- One layer of the tag/length loop of `Abstract.read` (types.py lines
444-460): check the tag bytes (`ASN1TagError` on mismatch), read the
length, check that enough bytes remain; returns the declared length and
the buffer just after the length header. -/
def readTagStep (t : Tag) (buf : List Nat) : Except Err (Nat × List Nat) :=
  if buf.take t.value.length ≠ t.value then .error .tagMismatch
  else
    match read_length (buf.drop t.value.length) with
    | .error e => .error e
    | .ok (len, buf') =>
      if buf'.length < len then .error .malformed
      else .ok (len, buf')

/-- The `for t in reversed(cls.tags)` loop of `Abstract.read`, outermost
tag first.  As in the source the buffer is not truncated between layers,
and the length returned is the one read in the final (innermost)
iteration. -/
def readTagsLoop (t : Tag) (rest_tags : List Tag) (buf : List Nat) :
    Except Err (Nat × List Nat) :=
  match readTagStep t buf with
  | .error e => .error e
  | .ok (len, buf') =>
    match rest_tags with
    | [] => .ok (len, buf')
    | t' :: ts => readTagsLoop t' ts buf'

/-- The framing part of `Abstract.read` for a tagged schema: run the tag
loop over `reversed(cls.tags)`, producing the declared content length and
the buffer positioned after all tag/length headers.  (Every schema in this
universe is tagged, so the untagged branch of `read` is unreachable here;
the `[]` case is junk.) -/
def readFrame (s : Schema) (buf : List Nat) : Except Err (Nat × List Nat) :=
  match s.tags.reverse with
  | [] => .error .malformed
  | t :: ts => readTagsLoop t ts buf

def Tag.value_length (t : Tag) : t.value.length = 1 := rfl

def read_length_lt {buf : List Nat} {n : Nat} {rest : List Nat}
    (h : read_length buf = .ok (n, rest)) : rest.length < buf.length := by
  match buf with
  | [] => simp [read_length] at h
  | b0 :: rest0 =>
    simp only [read_length] at h
    split at h
    · simp only [Except.ok.injEq, Prod.mk.injEq] at h
      obtain ⟨rfl, rfl⟩ := h
      simp
    · split at h
      · simp at h
      · match hd : decode_int (rest0.take (b0 % 128)) false with
        | .error e => rw [hd] at h; simp [Except.map] at h
        | .ok i =>
          rw [hd] at h
          simp only [Except.map, Except.ok.injEq, Prod.mk.injEq] at h
          obtain ⟨rfl, rfl⟩ := h
          simp only [List.length_drop, List.length_cons]
          omega

def readTagStep_bounds {t : Tag} {buf : List Nat} {len : Nat} {buf' : List Nat}
    (h : readTagStep t buf = .ok (len, buf')) :
    len ≤ buf'.length ∧ buf'.length + 2 ≤ buf.length := by
  unfold readTagStep at h
  split at h
  · simp at h
  · rename_i htag
    rw [not_not] at htag
    have hbuf : 1 ≤ buf.length := by
      by_contra hc
      have : buf = [] := by
        cases buf with
        | nil => rfl
        | cons a l => simp at hc
      subst this
      simp [Tag.value] at htag
    match hrl : read_length (buf.drop t.value.length) with
    | .error e => rw [hrl] at h; simp at h
    | .ok (len0, buf0) =>
      rw [hrl] at h
      dsimp only at h
      have hlt : buf0.length < (buf.drop t.value.length).length := read_length_lt hrl
      by_cases hle : buf0.length < len0
      · rw [if_pos hle] at h
        exact (Except.noConfusion h)
      · rw [if_neg hle] at h
        cases h
        simp only [List.length_drop, Tag.value_length] at hlt
        omega

def readTagsLoop_bounds :
    ∀ (ts : List Tag) (t : Tag) (buf : List Nat) (len : Nat) (buf' : List Nat),
      readTagsLoop t ts buf = .ok (len, buf') →
      len ≤ buf'.length ∧ buf'.length + 2 ≤ buf.length := by
  intro ts
  induction ts with
  | nil =>
    intro t buf len buf' h
    unfold readTagsLoop at h
    match hs : readTagStep t buf with
    | .error e => rw [hs] at h; simp at h
    | .ok (len0, buf0) =>
      rw [hs] at h
      simp only [Except.ok.injEq, Prod.mk.injEq] at h
      obtain ⟨rfl, rfl⟩ := h
      exact readTagStep_bounds hs
  | cons t' ts ih =>
    intro t buf len buf' h
    unfold readTagsLoop at h
    match hs : readTagStep t buf with
    | .error e => rw [hs] at h; simp at h
    | .ok (len0, buf0) =>
      rw [hs] at h
      have h1 := readTagStep_bounds hs
      have h2 := ih t' buf0 len buf' h
      omega

def readFrame_bounds {s : Schema} {buf : List Nat} {len : Nat} {buf' : List Nat}
    (h : readFrame s buf = .ok (len, buf')) :
    len ≤ buf'.length ∧ buf'.length + 2 ≤ buf.length := by
  unfold readFrame at h
  split at h
  · simp at h
  · exact readTagsLoop_bounds _ _ _ _ _ h

mutual

/-- The kind-specific `_decode_value`, applied to the content slice:
Boolean (types.py 538-548), Integer (566-568, with no use of the strict
flag), the string kinds (591-593), BitString (684-699), and the repeated
kinds (1003-1009 and 1025-1033), which repeatedly `read` elements until
the content is exhausted.  Derived tagged types inherit the base kind's
decoder. -/
def contentDecode (s : Schema) (buf : List Nat) (strict : Bool) : Except Err Value :=
  match s with
  | .boolean => (booleanDecodeValue buf strict).map .bool
  | .integer => (decode_int buf true).map .int
  | .asn1String _ => .ok (.str buf)
  | .bitString => (bitStringDecodeValue buf strict).map .bits
  | .seqOf e => (repeatedDecode e buf strict).map .list
  | .setOf e => (repeatedDecode e buf strict).map .list
  | .explicitTag _ _ inner => contentDecode inner buf strict
  | .implicitTag _ _ inner => contentDecode inner buf strict
termination_by (buf.length, 2 * s.size)
decreasing_by
  all_goals apply Prod.Lex.right
  all_goals simp [Schema.size]
  all_goals omega

/-- The `while buf:` loop of `SequenceOf._decode_value` and
`SetOf._decode_value`: `read` one element (frame, then content), append,
continue on the rest. -/
def repeatedDecode (e : Schema) (buf : List Nat) (strict : Bool) : Except Err (List Value) :=
  if _hb : buf = [] then .ok []
  else
    match hf : readFrame e buf with
    | .error err => .error err
    | .ok (len, buf') =>
      match contentDecode e (buf'.take len) strict with
      | .error err => .error err
      | .ok v => (repeatedDecode e (buf'.drop len) strict).map (v :: ·)
termination_by (buf.length, 2 * e.size + 1)
decreasing_by
  · have := readFrame_bounds hf
    apply Prod.Lex.left
    simp only [List.length_take]
    omega
  · have := readFrame_bounds hf
    apply Prod.Lex.left
    simp only [List.length_drop]
    omega

end

/-- Models `Abstract.read` for a tagged schema (types.py lines 431-470): frame,
then hand the content slice of exactly the declared length to the
kind-specific decoder; return the instance and the leftover bytes. -/
def readVal (s : Schema) (buf : List Nat) (strict : Bool) : Except Err (Value × List Nat) :=
  match readFrame s buf with
  | .error e => .error e
  | .ok (len, buf') =>
    (contentDecode s (buf'.take len) strict).map fun v => (v, buf'.drop len)

/-- Models `Abstract.decode` (types.py lines 472-487): whole-buffer decoding;
leftover bytes after the single top-level value are a `MalformedEncoding`
failure. -/
def decode (s : Schema) (buf : List Nat) (strict : Bool) : Except Err Value :=
  match readVal s buf strict with
  | .error e => .error e
  | .ok (v, rest) => if rest = [] then .ok v else .error .malformed

/-- Element order used by `SetOf` canonicalization: compare elements by the
byte strings they encode to. -/
def encLe (e : Schema) (a b : Value) : Prop :=
  strLeP (encodeValue e a) (encodeValue e b)

instance (e : Schema) : DecidableRel (encLe e) := fun a b => by
  unfold encLe strLeP; infer_instance

/-- The canonical form of a value: every `SetOf` element list re-sorted
into ascending order of the elements' encodings (which is exactly the
order `SetOf._encode_value` emits, hence the order `decode` reads back). -/
def canon (s : Schema) (v : Value) : Value :=
  match s, v with
  | .seqOf e, .list vs => .list (vs.map fun x => canon e x)
  | .setOf e, .list vs => .list (List.insertionSort (encLe e) (vs.map fun x => canon e x))
  | .explicitTag _ _ inner, w => canon inner w
  | .implicitTag _ _ inner, w => canon inner w
  | _, w => w
termination_by s.size
decreasing_by
  all_goals simp [Schema.size]

/-- Holds when `v` is already in canonical form: every `SetOf` element list it
contains is sorted in ascending order of element encodings. -/
def canonicalOrdered : Schema → Value → Prop
  | .seqOf e, .list vs => ∀ x ∈ vs, canonicalOrdered e x
  | .setOf e, .list vs => (∀ x ∈ vs, canonicalOrdered e x) ∧ List.Sorted (encLe e) vs
  | .explicitTag _ _ inner, w => canonicalOrdered inner w
  | .implicitTag _ _ inner, w => canonicalOrdered inner w
  | _, _ => True
termination_by s _ => s.size
decreasing_by
  all_goals simp [Schema.size]

/-- Value of a little-endian byte list. -/
def leVal : List Nat → Int
  | [] => 0
  | b :: rest => (b : Int) + 256 * leVal rest

/-- The big-endian accumulator fold used by `decode_int`. -/
def beVal (start : Int) (l : List Nat) : Int :=
  l.foldl (fun acc b => acc * 256 + (b : Int)) start

/-- All content lengths in the theorems below stay under this bound (a
127-length-octet length header); beyond it Python's `chr` in
`encode_length` would fail or truncate. -/
def lenBound : Nat := 256 ^ 127

/-!
### Sequence (ordered record)

Modelled over the schema universe above: a `Component` (types.py 1036-1064)
has a name, a field schema, an optional flag, and a default.  `defined_by`/
`lookup` (the Any-typed defined-by machinery) and `encoded_default` (used
only by encoding) carry no claim here and are not modelled.
-/

structure Component where
  name : String
  value_type : Schema
  optionalFlag : Bool
  default : Option Value

/-- Models `self.optional = optional or (self.default is not None)`
(types.py line 1062). -/
def Component.optionalEff (c : Component) : Bool := c.optionalFlag || c.default.isSome

/-- Models `Sequence._convert_single_value` (types.py 1137-1148) for a value that
is `None` (store the default) or already of the exact component type (the
`type(value) is component.value_type` branch); the cross-kind coercion
`component.value_type(value)` of the final branch is not modelled and is
represented by a `TypeError`. -/
def convertSingleValue (c : Component) (v : Option Value) : Except Err (Option Value) :=
  match v with
  | none => .ok c.default
  | some w => if w.conforms c.value_type then .ok (some w) else .error .typeErr

/-- The per-component loop of `Sequence._convert_value` (types.py
1156-1158): build the name → value dict in component order. -/
def seqConvertFields (comps : List Component) (input : List (String × Value)) :
    Except Err (List (String × Option Value)) :=
  match comps with
  | [] => .ok []
  | c :: rest =>
    match convertSingleValue c (input.lookup c.name) with
    | .error e => .error e
    | .ok w =>
      match seqConvertFields rest input with
      | .error e => .error e
      | .ok tail => .ok ((c.name, w) :: tail)

/-- Models `Sequence._convert_value` (types.py 1150-1159): reject unknown keys
with `ValueError`, then convert each component from the initializer. -/
def seqConvertValue (comps : List Component) (input : List (String × Value)) :
    Except Err (List (String × Option Value)) :=
  if input.all fun kv => comps.any fun c => c.name = kv.1 then
    seqConvertFields comps input
  else .error .valueErr

/-- A `Sequence` value instance: `value` is the `_value` dict set by
`__init__`, and `values` is the distinct `_values` attribute that
`__setitem__` (types.py line 1094) creates and writes to — note the
trailing `s` in the source; `__getitem__` reads `_value`. -/
structure SeqInstance where
  value : List (String × Option Value)
  values : List (String × Option Value)

/-- Construction from an initializer value (`Abstract.__init__` calling
`Sequence._convert_value`); the `_values` attribute does not exist yet. -/
def seqMake (comps : List Component) (input : List (String × Value)) :
    Except Err SeqInstance :=
  (seqConvertValue comps input).map fun m => ⟨m, []⟩

/-- Python dict assignment on an association list. -/
def setKey (m : List (String × Option Value)) (k : String) (v : Option Value) :
    List (String × Option Value) :=
  match m with
  | [] => [(k, v)]
  | (k', v') :: rest => if k' = k then (k, v) :: rest else (k', v') :: setKey rest k v

/-- Models `Sequence.__setitem__` (types.py 1091-1094): look the component up in
`key_map` (`KeyError` if absent), convert the value, then execute
`self._values[key] = value` — the assignment goes to the `_values`
attribute, not to the `_value` dict that `__getitem__` reads. -/
def seqSetItem (comps : List Component) (s : SeqInstance) (key : String)
    (v : Option Value) : Except Err SeqInstance :=
  match comps.find? fun c => c.name = key with
  | none => .error .keyErr
  | some c => (convertSingleValue c v).map fun w => { s with values := setKey s.values key w }

/-- Models `Sequence.__getitem__` (types.py 1088-1089): `return self._value[key]`. -/
def seqGetItem (s : SeqInstance) (key : String) : Except Err (Option Value) :=
  match s.value.lookup key with
  | some v => .ok v
  | none => .error .keyErr

/-- Models `Sequence._decode_value` (types.py 1161-1185): for each component in
declared order attempt `read` against its field schema; on `ASN1TagError`
substitute the default if the component is optional, otherwise re-raise;
other errors propagate; after all components, leftover bytes are a
`MalformedEncoding` failure.  The second pass (defined-by resolution of
`Any` fields, lines 1187-1199) does not apply: no modelled component
carries `defined_by`. -/
def seqDecodeValue (comps : List Component) (buf : List Nat) (strict : Bool) :
    Except Err (List (String × Option Value)) :=
  match comps with
  | [] => if buf = [] then .ok [] else .error .malformed
  | c :: rest =>
    match readVal c.value_type buf strict with
    | .error .tagMismatch =>
      if c.optionalEff then
        (seqDecodeValue rest buf strict).map fun tail => (c.name, c.default) :: tail
      else .error .tagMismatch
    | .error e => .error e
    | .ok (v, buf') =>
      (seqDecodeValue rest buf' strict).map fun tail => (c.name, some v) :: tail

/-!
### Choice (tagged union)

Alternatives over the schema universe; every alternative schema is tagged,
matching the `MetaChoice` requirement that untagged components be rejected.
-/

structure ChoiceAlt where
  name : String
  spec : Schema

/-- The tag → alternative-name table precomputed by `MetaChoice`
(types.py 798-817), keyed on each alternative's outermost tag
(`spec.tags[-1]`; every universe schema is tagged, so the `getLastD`
default is never used). -/
def choiceTagMap (alts : List ChoiceAlt) : List (Tag × String) :=
  alts.map fun a => (a.spec.tags.getLastD ⟨0, 0, false⟩, a.name)

/-- The `self.components[key]` lookup. -/
def choiceFind (alts : List ChoiceAlt) (key : String) : Option ChoiceAlt :=
  alts.find? fun a => a.name = key

/-- Models `Choice._decode_readahead_value` (types.py 926-948): look the read
tag up in `tag_map` (`ASN1TagError` if absent); if the matched
alternative's schema has exactly one tag layer take the fast path — the
source calls `cls.components[key](serialized_value=readahead_value)` at
line 940 WITHOUT passing `strict`, so the content is decoded with the
constructor's default `strict=True` whatever the caller requested; with
multiple tag layers, re-`read` the full buffer (passing `strict`) and
reject leftover bytes. -/
def choiceDecodeReadahead (alts : List ChoiceAlt) (buf : List Nat) (rTag : Tag)
    (rValue : List Nat) (strict : Bool) : Except Err (List (String × Value)) :=
  match (choiceTagMap alts).lookup rTag with
  | none => .error .tagMismatch
  | some key =>
    match choiceFind alts key with
    | none => .error .keyErr
    | some alt =>
      if alt.spec.tags.length = 1 then
        (contentDecode alt.spec rValue true).map fun v => [(key, v)]
      else
        match readVal alt.spec buf strict with
        | .error e => .error e
        | .ok (v, rest) => if rest = [] then .ok [(key, v)] else .error .malformed

/-- Models `Choice._read` (types.py 892-902): peek the wire tag and length, then
decode the whole TLV span through the readahead decoder, returning the
instance value and the remaining bytes. -/
def choiceRead (alts : List ChoiceAlt) (buf : List Nat) (strict : Bool) :
    Except Err (List (String × Value) × List Nat) :=
  match tagRead buf with
  | .error e => .error e
  | .ok (rTag, rest0) =>
    match read_length rest0 with
    | .error e => .error e
    | .ok (len, rest) =>
      if rest.length < len then .error .malformed
      else
        (choiceDecodeReadahead alts (buf.take (buf.length - rest.length + len)) rTag
            (rest.take len) strict).map
          fun st => (st, buf.drop (buf.length - rest.length + len))

/-- Models `Choice._decode_value` (types.py 950-957). -/
def choiceDecodeValue (alts : List ChoiceAlt) (buf : List Nat) (strict : Bool) :
    Except Err (List (String × Value)) :=
  match tagRead buf with
  | .error e => .error e
  | .ok (rTag, rest0) =>
    match read_length rest0 with
    | .error e => .error e
    | .ok (len, rest) =>
      if rest.length ≠ len then .error .malformed
      else choiceDecodeReadahead alts buf rTag rest strict

/-- Models `Choice._convert_value` (types.py 904-924): an empty initializer gives
the empty state; more than one entry is a `ValueError`; a `None` value
clears; an invalid key is a `ValueError` (the source turns the `KeyError`
into one); a value of the exact alternative type is stored (the coercion
`spec(value)` of the final branch is not modelled and is represented by a
`TypeError`). -/
def choiceConvertValue (alts : List ChoiceAlt) (input : List (String × Option Value)) :
    Except Err (List (String × Value)) :=
  match input with
  | [] => .ok []
  | [(k, v)] =>
    match v with
    | none => .ok []
    | some w =>
      match choiceFind alts k with
      | none => .error .valueErr
      | some alt => if w.conforms alt.spec then .ok [(k, w)] else .error .typeErr
  | _ => .error .valueErr

/-- Models `Choice.__setitem__` (types.py 858-867): replace the whole `_value`
dict: `{}` for `None`, else the singleton `{key: value}` (exact-type
branch; `spec(value)` coercion not modelled).  The previous state is
discarded wholesale, which is why it does not appear. -/
def choiceSetItem (alts : List ChoiceAlt) (_st : List (String × Value)) (key : String)
    (v : Option Value) : Except Err (List (String × Value)) :=
  match choiceFind alts key with
  | none => .error .keyErr
  | some alt =>
    match v with
    | none => .ok []
    | some w => if w.conforms alt.spec then .ok [(key, w)] else .error .typeErr

/-- Models `Choice.__delitem__` (types.py 869-874): clear if the key is set, raise
`KeyError` if the key is invalid, otherwise do nothing. -/
def choiceDelItem (alts : List ChoiceAlt) (st : List (String × Value)) (key : String) :
    Except Err (List (String × Value)) :=
  if (st.lookup key).isSome then .ok []
  else if (choiceFind alts key).isNone then .error .keyErr
  else .ok st


/-! ### Round-trip of the integer primitives -/

theorem Schema.tags_ne_nil (s : Schema) : s.tags ≠ [] := by
  cases s <;> simp [Schema.tags]

theorem beVal_linear (l : List Nat) : ∀ s : Int,
    beVal s l = s * (256 : Int) ^ l.length + beVal 0 l := by
  induction l with
  | nil => intro s; simp [beVal]
  | cons b rest ih =>
    intro s
    have h1 : beVal s (b :: rest) = beVal (s * 256 + (b : Int)) rest := rfl
    have h2 : beVal 0 (b :: rest) = beVal ((0 : Int) * 256 + (b : Int)) rest := rfl
    rw [h1, h2, ih (s * 256 + (b : Int)), ih ((0 : Int) * 256 + (b : Int))]
    simp [List.length_cons]
    ring

theorem beVal_append (s : Int) (l1 l2 : List Nat) :
    beVal s (l1 ++ l2) = beVal (beVal s l1) l2 := by
  simp [beVal, List.foldl_append]

theorem beVal_reverse (l : List Nat) : beVal 0 l.reverse = leVal l := by
  induction l with
  | nil => simp [beVal, leVal]
  | cons b rest ih =>
    rw [List.reverse_cons, beVal_append, ih]
    have h1 : ∀ s : Int, beVal s [b] = s * 256 + (b : Int) := fun s => rfl
    have h2 : leVal (b :: rest) = (b : Int) + 256 * leVal rest := rfl
    rw [h1, h2]
    ring

theorem reverse_headD (l : List Nat) (d : Nat) : l.reverse.headD d = l.getLastD d := by
  induction l generalizing d with
  | nil => simp
  | cons a t ih =>
    rw [List.reverse_cons]
    cases ht : t.reverse with
    | nil =>
      have : t = [] := by simpa using congrArg List.reverse ht
      subst this
      simp
    | cons x xs =>
      have htne : t ≠ [] := by
        intro hc; subst hc; simp at ht
      rw [List.getLastD_cons]
      rw [← ih a]
      rw [ht]
      simp

/-- The division identity for one step of the encode loop. -/
theorem intLoop_step (v : Int) :
    256 * Int.fdiv v 256 + Int.fmod v 256 = v ∧
    0 ≤ Int.fmod v 256 ∧ Int.fmod v 256 < 256 :=
  ⟨Int.fdiv_add_fmod v 256, Int.fmod_nonneg' v (by norm_num),
    Int.fmod_lt_of_pos v (by norm_num)⟩

theorem intLoopBytes_spec (v : Int) :
    leVal (intLoopBytes v) +
      (256 : Int) ^ (intLoopBytes v).length * (if v < 0 then -1 else 0) = v := by
  induction v using intLoopBytes.induct with
  | case1 v hv =>
    rw [intLoopBytes, if_pos hv]
    rcases hv with rfl | rfl <;> simp [leVal]
  | case2 v hv ih =>
    rw [intLoopBytes, if_neg hv]
    push_neg at hv
    obtain ⟨hid, hr0, hr1⟩ := intLoop_step v
    have hsgn : Int.fdiv v 256 < 0 ↔ v < 0 := by
      constructor <;> intro h <;> omega
    simp only [leVal, List.length_cons]
    have htn : ((Int.fmod v 256).toNat : Int) = Int.fmod v 256 := Int.toNat_of_nonneg hr0
    rw [htn]
    by_cases hneg : v < 0
    · rw [if_pos hneg]
      rw [if_pos (hsgn.mpr hneg)] at ih
      rw [pow_succ]
      nlinarith [ih]
    · rw [if_neg hneg]
      rw [if_neg (fun hc => hneg (hsgn.mp hc))] at ih
      simp only [mul_zero, add_zero] at ih ⊢
      omega

theorem intLoopBytes_bytes_lt (v : Int) : ∀ b ∈ intLoopBytes v, b < 256 := by
  induction v using intLoopBytes.induct with
  | case1 v hv => rw [intLoopBytes, if_pos hv]; simp
  | case2 v hv ih =>
    rw [intLoopBytes, if_neg hv]
    intro b hb
    rcases List.mem_cons.mp hb with rfl | hb
    · obtain ⟨hid, hr0, hr1⟩ := intLoop_step v
      omega
    · exact ih b hb

theorem intLoopBytes_pos (v : Int) (hv : 1 ≤ v) :
    intLoopBytes v ≠ [] ∧ (intLoopBytes v).getLastD 0 ≠ 0 := by
  induction v using intLoopBytes.induct with
  | case1 v h => omega
  | case2 v h ih =>
    obtain ⟨hid, hr0, hr1⟩ := intLoop_step v
    rw [intLoopBytes, if_neg h]
    push_neg at h
    refine ⟨by simp, ?_⟩
    by_cases hq : Int.fdiv v 256 = 0
    · rw [hq] at hid
      have : intLoopBytes (Int.fdiv v 256) = [] := by
        rw [hq, intLoopBytes]; simp
      rw [this]
      simp only [List.getLastD_cons, List.getLastD_nil]
      omega
    · have hq1 : 1 ≤ Int.fdiv v 256 := by omega
      obtain ⟨hne, hlast⟩ := ih hq1
      rw [List.getLastD_cons]
      cases hε : intLoopBytes (Int.fdiv v 256) with
      | nil => exact absurd hε hne
      | cons x xs =>
        rw [hε] at hlast
        rw [List.getLastD_cons] at hlast ⊢
        exact hlast

theorem intLoopBytes_neg (v : Int) (hv : v ≤ -2) :
    intLoopBytes v ≠ [] ∧ (intLoopBytes v).getLastD 0 ≠ 255 := by
  induction v using intLoopBytes.induct with
  | case1 v h => omega
  | case2 v h ih =>
    obtain ⟨hid, hr0, hr1⟩ := intLoop_step v
    rw [intLoopBytes, if_neg h]
    push_neg at h
    refine ⟨by simp, ?_⟩
    by_cases hq : Int.fdiv v 256 = -1
    · rw [hq] at hid
      have : intLoopBytes (Int.fdiv v 256) = [] := by
        rw [hq, intLoopBytes]; simp
      rw [this]
      simp only [List.getLastD_cons, List.getLastD_nil]
      omega
    · have hq1 : Int.fdiv v 256 ≤ -2 := by omega
      obtain ⟨hne, hlast⟩ := ih hq1
      rw [List.getLastD_cons]
      cases hε : intLoopBytes (Int.fdiv v 256) with
      | nil => exact absurd hε hne
      | cons x xs =>
        rw [hε] at hlast
        rw [List.getLastD_cons] at hlast ⊢
        exact hlast

theorem beVal_cons (b : Nat) (l : List Nat) : beVal 0 (b :: l) = beVal (b : Int) l := by
  simp [beVal]

theorem decode_int_ok (b0 : Nat) (rest : List Nat) (signed : Bool)
    (h1 : ¬(rest ≠ [] ∧ b0 = 0 ∧ rest.headD 0 < 128))
    (h2 : ¬(rest ≠ [] ∧ signed = true ∧ b0 = 0xff ∧ 128 ≤ rest.headD 0)) :
    decode_int (b0 :: rest) signed =
      .ok (beVal (if signed = true ∧ 127 < b0 then (b0 : Int) - 256 else (b0 : Int)) rest) := by
  simp only [decode_int, if_neg h1, if_neg h2]
  rfl

theorem encode_int_body_eq (v : Int) (h0 : v ≠ 0) (h1 : v ≠ -1) :
    encode_int_body v true =
      (if v < 0 ∧ (intLoopBytes v).getLastD 0 ≤ 127 then intLoopBytes v ++ [0xff]
       else if 0 < v ∧ 127 < (intLoopBytes v).getLastD 0 then intLoopBytes v ++ [0x00]
       else intLoopBytes v).reverse := by
  unfold encode_int_body
  rw [if_neg h0, if_neg h1]
  simp

theorem encode_int_body_eq_unsigned (v : Int) (h0 : v ≠ 0) (h1 : v ≠ -1) :
    encode_int_body v false = (intLoopBytes v).reverse := by
  unfold encode_int_body
  rw [if_neg h0, if_neg h1]
  simp

theorem decode_int_encode_int (v : Int) :
    decode_int (encode_int_body v true) true = .ok v := by
  by_cases h0 : v = 0
  · subst h0
    simp [encode_int_body, decode_int, beVal]
  by_cases h1 : v = -1
  · subst h1
    simp [encode_int_body, decode_int, beVal]
  have hspec := intLoopBytes_spec v
  set M := intLoopBytes v with hM
  have hrev : M.reverse.headD 0 = M.getLastD 0 := reverse_headD M 0
  have hbody := encode_int_body_eq v h0 h1
  rw [← hM] at hbody
  rcases lt_trichotomy v 0 with hneg | hz | hpos
  · -- v ≤ -2
    have hv2 : v ≤ -2 := by omega
    obtain ⟨hne, hlast⟩ := intLoopBytes_neg v hv2
    rw [← hM] at hne hlast
    rw [if_pos hneg] at hspec
    have hrevne : M.reverse ≠ [] := by simpa using hne
    by_cases hmsb : M.getLastD 0 ≤ 127
    · -- fixup appends 0xff; buffer is 255 :: M.reverse
      rw [if_pos ⟨hneg, hmsb⟩] at hbody
      have henc : encode_int_body v true = 255 :: M.reverse := by
        rw [hbody]; simp
      rw [henc, decode_int_ok]
      · have hcond : ((true = true ∧ 127 < 255) : Prop) := ⟨rfl, by norm_num⟩
        rw [if_pos hcond]
        have hd : ((255 : Nat) : Int) - 256 = -1 := by norm_num
        rw [hd]
        have hl := beVal_linear M.reverse (-1)
        rw [hl, beVal_reverse, List.length_reverse]
        simp only [Except.ok.injEq]
        omega
      · intro ⟨_, hc, _⟩
        exact absurd hc (by norm_num)
      · intro ⟨_, _, _, hc⟩
        rw [hrev] at hc
        omega
    · -- no fixup; buffer is M.reverse, leading byte ≥ 128
      rw [if_neg (fun hp => hmsb hp.2), if_neg (fun hp => by omega)] at hbody
      rw [hbody]
      cases hM' : M.reverse with
      | nil => exact absurd hM' hrevne
      | cons b0 rest =>
        have hb0 : b0 = M.getLastD 0 := by rw [← hrev, hM']; rfl
        have hlen : rest.length + 1 = M.length := by
          have := congrArg List.length hM'
          simp at this
          omega
        rw [decode_int_ok]
        · have hcond : ((true = true ∧ 127 < b0) : Prop) := ⟨rfl, by omega⟩
          rw [if_pos hcond]
          have hdiff : beVal ((b0 : Int) - 256) rest =
              beVal (b0 : Int) rest - (256 : Int) ^ (rest.length + 1) := by
            rw [beVal_linear rest ((b0 : Int) - 256), beVal_linear rest (b0 : Int), pow_succ]
            ring
          rw [hdiff, ← beVal_cons, ← hM', beVal_reverse, hlen]
          simp only [Except.ok.injEq]
          omega
        · intro ⟨_, hc, _⟩
          omega
        · intro ⟨_, _, hc, _⟩
          exact hlast (by omega)
  · exact absurd hz h0
  · -- v ≥ 1
    have hv1 : 1 ≤ v := by omega
    obtain ⟨hne, hlast⟩ := intLoopBytes_pos v hv1
    rw [← hM] at hne hlast
    rw [if_neg (by omega)] at hspec
    simp only [mul_zero, add_zero] at hspec
    have hrevne : M.reverse ≠ [] := by simpa using hne
    by_cases hmsb : 127 < M.getLastD 0
    · -- fixup appends 0x00; buffer is 0 :: M.reverse
      rw [if_neg (fun hp => by omega), if_pos ⟨hpos, hmsb⟩] at hbody
      have henc : encode_int_body v true = 0 :: M.reverse := by
        rw [hbody]; simp
      rw [henc, decode_int_ok]
      · have hcond : ¬ ((true = true ∧ 127 < 0) : Prop) := fun hp => by omega
        rw [if_neg hcond]
        have hz0 : ((0 : Nat) : Int) = 0 := rfl
        rw [hz0, beVal_reverse]
        simp only [Except.ok.injEq]
        omega
      · intro ⟨_, _, hc⟩
        rw [hrev] at hc
        omega
      · intro ⟨_, _, hc, _⟩
        exact absurd hc (by norm_num)
    · -- no fixup; buffer is M.reverse, leading byte ≤ 127 and non-zero
      rw [if_neg (fun hp => by omega), if_neg (fun hp => hmsb hp.2)] at hbody
      rw [hbody]
      cases hM' : M.reverse with
      | nil => exact absurd hM' hrevne
      | cons b0 rest =>
        have hb0 : b0 = M.getLastD 0 := by rw [← hrev, hM']; rfl
        rw [decode_int_ok]
        · have hcond : ¬ ((true = true ∧ 127 < b0) : Prop) := fun hp => by omega
          rw [if_neg hcond]
          rw [← beVal_cons, ← hM', beVal_reverse]
          simp only [Except.ok.injEq]
          omega
        · intro ⟨_, hc, _⟩
          exact hlast (by omega)
        · intro ⟨_, _, hc, _⟩
          omega

theorem decode_int_encode_int_unsigned (v : Int) (hv : 0 ≤ v) :
    decode_int (encode_int_body v false) false = .ok v := by
  by_cases h0 : v = 0
  · subst h0
    simp [encode_int_body, decode_int, beVal]
  have hv1 : 1 ≤ v := by omega
  have hspec := intLoopBytes_spec v
  rw [if_neg (by omega)] at hspec
  simp only [mul_zero, add_zero] at hspec
  obtain ⟨hne, hlast⟩ := intLoopBytes_pos v hv1
  set M := intLoopBytes v with hM
  have hrev : M.reverse.headD 0 = M.getLastD 0 := reverse_headD M 0
  have hrevne : M.reverse ≠ [] := by simpa using hne
  have henc : encode_int_body v false = M.reverse :=
    encode_int_body_eq_unsigned v h0 (by omega)
  rw [henc]
  cases hM' : M.reverse with
  | nil => exact absurd hM' hrevne
  | cons b0 rest =>
    have hb0 : b0 = M.getLastD 0 := by rw [← hrev, hM']; rfl
    rw [decode_int_ok]
    · have hcond : ¬ ((false = true ∧ 127 < b0) : Prop) := fun hp => by simp at hp
      rw [if_neg hcond]
      rw [← beVal_cons, ← hM', beVal_reverse]
      simp only [Except.ok.injEq]
      omega
    · intro ⟨_, hc, _⟩
      exact hlast (by omega)
    · intro ⟨_, hc, _, _⟩
      simp at hc

/-! ### Round-trip of Boolean and BitString content codecs -/

theorem booleanDecode_encode (b : Bool) (strict : Bool) :
    booleanDecodeValue (booleanEncodeValue b) strict = .ok b := by
  cases b <;> cases strict <;> rfl

theorem byteToBits_byteOfBits :
    ∀ a b c d e f g h : Bool,
      byteToBits (byteOfBits [a, b, c, d, e, f, g, h]) = [a, b, c, d, e, f, g, h] := by
  decide

theorem byteToBits_byteOfBits_len8 (l : List Bool) (hl : l.length = 8) :
    byteToBits (byteOfBits l) = l := by
  match l, hl with
  | [a, b, c, d, e, f, g, h], _ => exact byteToBits_byteOfBits a b c d e f g h

theorem unpackBits_packBits :
    ∀ (bs : List Bool), bs.length % 8 = 0 → unpackBits (packBits bs) = bs := by
  intro bs
  induction bs using packBits.induct with
  | case1 =>
    intro _
    simp [packBits, unpackBits]
  | case2 bs hnil ih =>
    intro h8
    rw [packBits, if_neg hnil]
    have hlen : 8 ≤ bs.length := by
      have : bs.length ≠ 0 := fun hc => hnil (List.eq_nil_of_length_eq_zero hc)
      omega
    have hdrop8 : (bs.drop 8).length % 8 = 0 := by
      simp only [List.length_drop]
      omega
    have htake8 : (bs.take 8).length = 8 := by
      simp only [List.length_take]
      omega
    unfold unpackBits
    simp only [List.map_cons, List.flatten_cons]
    have hrec : (List.map byteToBits (packBits (bs.drop 8))).flatten = bs.drop 8 :=
      ih hdrop8
    rw [hrec, byteToBits_byteOfBits_len8 _ htake8]
    exact List.take_append_drop 8 bs

theorem bitStringDecode_encode (bs : List Bool) (strict : Bool) :
    bitStringDecodeValue (bitStringEncodeValue bs) strict = .ok bs := by
  unfold bitStringEncodeValue
  set pad := (8 - bs.length % 8) % 8 with hpad
  have hpad7 : pad ≤ 7 := by omega
  have h8 : (bs ++ List.replicate pad false).length % 8 = 0 := by
    simp only [List.length_append, List.length_replicate]
    omega
  unfold bitStringDecodeValue
  dsimp only
  rw [if_neg (by omega)]
  rw [unpackBits_packBits _ h8]
  by_cases hp0 : pad = 0
  · rw [hp0]
    simp
  · rw [if_pos hp0]
    have hlen : (bs ++ List.replicate pad false).length = bs.length + pad := by
      simp
    have hne : (bs ++ List.replicate pad false) ≠ [] := by
      intro hc
      have := congrArg List.length hc
      simp at this
      omega
    have hdrop : (bs ++ List.replicate pad false).drop
        ((bs ++ List.replicate pad false).length - pad) = List.replicate pad false := by
      rw [hlen]
      have : bs.length + pad - pad = bs.length := by omega
      rw [this]
      exact List.drop_left bs (List.replicate pad false)
    have htake : (bs ++ List.replicate pad false).take
        ((bs ++ List.replicate pad false).length - pad) = bs := by
      rw [hlen]
      have : bs.length + pad - pad = bs.length := by omega
      rw [this]
      exact List.take_left bs (List.replicate pad false)
    rw [if_neg ?hcheck]
    · rw [htake]
    case hcheck =>
      intro hc
      rcases hc with hc | hc
      · exact hne hc
      · rw [hdrop] at hc
        simp at hc

/-! ### Round-trip of the length framing -/

theorem intLoopBytes_length_le : ∀ (k : Nat) (v : Int), 0 ≤ v → v < (256 : Int) ^ k →
    (intLoopBytes v).length ≤ k := by
  intro k
  induction k with
  | zero =>
    intro v h0 hlt
    have : v = 0 := by simp at hlt; omega
    subst this
    rw [intLoopBytes]
    simp
  | succ k ih =>
    intro v h0 hlt
    by_cases hz : v = 0
    · subst hz
      rw [intLoopBytes]
      simp
    · rw [intLoopBytes, if_neg (by omega)]
      obtain ⟨hid, hr0, hr1⟩ := intLoop_step v
      have hq0 : 0 ≤ Int.fdiv v 256 := by omega
      have hqlt : Int.fdiv v 256 < (256 : Int) ^ k := by
        rw [pow_succ] at hlt
        nlinarith
      have := ih (Int.fdiv v 256) hq0 hqlt
      simp only [List.length_cons]
      omega

theorem lor_128 : ∀ l : Nat, l < 128 → 128 ||| l = 128 + l := by decide

theorem read_length_encode_length (n : Nat) (rest : List Nat) (hn : n < lenBound) :
    read_length (encode_length n ++ rest) = .ok (n, rest) := by
  unfold encode_length
  by_cases h127 : n ≤ 127
  · rw [if_pos h127]
    simp only [List.cons_append, List.nil_append]
    unfold read_length
    dsimp only
    rw [if_pos h127]
  · rw [if_neg h127]
    have h0 : (n : Int) ≠ 0 := by omega
    have h1 : (n : Int) ≠ -1 := by omega
    have hbody := encode_int_body_eq_unsigned (n : Int) h0 h1
    have hlen_le : (intLoopBytes (n : Int)).length ≤ 127 := by
      apply intLoopBytes_length_le 127 (n : Int) (by omega)
      unfold lenBound at hn
      exact_mod_cast hn
    have hL : (encode_int_body (n : Int) false).length ≤ 127 := by
      rw [hbody]
      simpa using hlen_le
    set enc := encode_int_body (n : Int) false with hENC
    have hlor : 128 ||| enc.length = 128 + enc.length := lor_128 enc.length (by omega)
    simp only [List.cons_append]
    unfold read_length
    dsimp only
    rw [hlor]
    rw [if_neg (by omega)]
    have hmod : (128 + enc.length) % 128 = enc.length := by omega
    rw [hmod]
    rw [if_neg (by simp)]
    have htake : (enc ++ rest).take enc.length = enc := List.take_left enc rest
    have hdrop : (enc ++ rest).drop enc.length = rest := List.drop_left enc rest
    rw [htake, hdrop]
    rw [decode_int_encode_int_unsigned (n : Int) (by omega)]
    simp [Except.map]

/-! ### Properties of the byte-string order and of insertion sort -/

theorem strLe_total : ∀ a b : List Nat, strLe a b = true ∨ strLe b a = true := by
  intro a
  induction a with
  | nil => intro b; left; rfl
  | cons x xs ih =>
    intro b
    cases b with
    | nil => right; rfl
    | cons y ys =>
      by_cases hxy : x < y
      · left; simp [strLe, hxy]
      · by_cases hyx : y < x
        · right
          simp only [strLe]
          rw [if_pos hyx]
        · have hxy2 : x = y := by omega
          subst hxy2
          rcases ih ys with h | h
          · left
            simp only [strLe]
            rw [if_neg hxy, if_neg hyx]
            exact h
          · right
            simp only [strLe]
            rw [if_neg hyx, if_neg hxy]
            exact h

theorem strLe_trans : ∀ a b c : List Nat,
    strLe a b = true → strLe b c = true → strLe a c = true := by
  intro a
  induction a with
  | nil => intro b c _ _; rfl
  | cons x xs ih =>
    intro b c hab hbc
    cases b with
    | nil => simp [strLe] at hab
    | cons y ys =>
      cases c with
      | nil => simp [strLe] at hbc
      | cons z zs =>
        simp only [strLe] at hab hbc ⊢
        split at hab
        · rename_i hxy
          split at hbc
          · rename_i hyz
            rw [if_pos (by omega)]
          · split at hbc
            · simp at hbc
            · rename_i hyz hzy
              rw [if_pos (by omega)]
        · split at hab
          · simp at hab
          · rename_i hxy hyx
            have hxy2 : x = y := by omega
            subst hxy2
            split at hbc
            · rename_i hyz
              rw [if_pos (by omega)]
            · split at hbc
              · simp at hbc
              · rename_i hyz hzy
                have hyz2 : x = z := by omega
                subst hyz2
                rw [if_neg (by omega), if_neg (by omega)]
                exact ih ys zs hab hbc

theorem strLe_antisymm : ∀ a b : List Nat,
    strLe a b = true → strLe b a = true → a = b := by
  intro a
  induction a with
  | nil =>
    intro b _ hba
    cases b with
    | nil => rfl
    | cons y ys => simp [strLe] at hba
  | cons x xs ih =>
    intro b hab hba
    cases b with
    | nil => simp [strLe] at hab
    | cons y ys =>
      simp only [strLe] at hab hba
      split at hab
      · rename_i hxy
        rw [if_neg (by omega), if_pos (by omega)] at hba
        simp at hba
      · split at hab
        · simp at hab
        · rename_i hxy hyx
          have : x = y := by omega
          subst this
          rw [if_neg (by omega), if_neg (by omega)] at hba
          rw [ih ys hab hba]

instance : IsTotal (List Nat) strLeP := ⟨fun a b => strLe_total a b⟩

instance : IsTrans (List Nat) strLeP := ⟨fun a b c => strLe_trans a b c⟩

instance : IsAntisymm (List Nat) strLeP := ⟨fun a b => strLe_antisymm a b⟩

instance (e : Schema) : IsTotal Value (encLe e) :=
  ⟨fun a b => strLe_total (encodeValue e a) (encodeValue e b)⟩

instance (e : Schema) : IsTrans Value (encLe e) :=
  ⟨fun a b c => strLe_trans (encodeValue e a) (encodeValue e b) (encodeValue e c)⟩

theorem orderedInsert_map_key (e : Schema) (a : Value) :
    ∀ l : List Value,
      List.orderedInsert strLeP (encodeValue e a) (l.map fun x => encodeValue e x) =
        (List.orderedInsert (encLe e) a l).map fun x => encodeValue e x := by
  intro l
  induction l with
  | nil => rfl
  | cons b t ih =>
    by_cases h : encLe e a b
    · have h' : strLeP (encodeValue e a) (encodeValue e b) := h
      rw [List.map_cons, List.orderedInsert, List.orderedInsert, if_pos h', if_pos h]
      simp
    · have h' : ¬ strLeP (encodeValue e a) (encodeValue e b) := h
      rw [List.map_cons, List.orderedInsert, List.orderedInsert, if_neg h', if_neg h]
      rw [List.map_cons, ih]

theorem insertionSort_map_key (e : Schema) :
    ∀ l : List Value,
      List.insertionSort strLeP (l.map fun x => encodeValue e x) =
        (List.insertionSort (encLe e) l).map fun x => encodeValue e x := by
  intro l
  induction l with
  | nil => rfl
  | cons a t ih =>
    rw [List.map_cons, List.insertionSort, List.insertionSort, ih]
    exact orderedInsert_map_key e a (List.insertionSort (encLe e) t)

/-! ### Reading back what `encode` wraps -/

theorem wrapTags_nil (c : List Nat) : wrapTags [] c = c := rfl

theorem wrapTags_concat (ts : List Tag) (t : Tag) (c : List Nat) :
    wrapTags (ts ++ [t]) c =
      t.value ++ encode_length (wrapTags ts c).length ++ wrapTags ts c := by
  unfold wrapTags
  rw [List.foldl_append]
  rfl

theorem encode_length_length_pos (n : Nat) : 1 ≤ (encode_length n).length := by
  unfold encode_length
  split <;> simp

theorem wrapTags_length_lt (ts : List Tag) (t : Tag) (c : List Nat) :
    (wrapTags ts c).length + 2 ≤ (wrapTags (ts ++ [t]) c).length := by
  rw [wrapTags_concat]
  simp only [List.length_append, Tag.value_length]
  have := encode_length_length_pos (wrapTags ts c).length
  omega

theorem wrapTags_concat_length (ts : List Tag) (t : Tag) (c : List Nat) :
    (wrapTags (ts ++ [t]) c).length =
      (wrapTags ts c).length + 1 +
        (encode_length (wrapTags ts c).length).length := by
  rw [wrapTags_concat]
  simp only [List.length_append, Tag.value_length]
  omega

theorem wrapTags_length_le (tags : List Tag) (c : List Nat) :
    c.length ≤ (wrapTags tags c).length := by
  induction tags using List.reverseRecOn with
  | nil => simp [wrapTags_nil]
  | append_singleton ts t ih =>
    have := wrapTags_length_lt ts t c
    omega

theorem encodeValue_def (s : Schema) (v : Value) :
    encodeValue s v = wrapTags s.tags (encodeContent s v) := by
  rw [encodeValue]

theorem encodeValue_ne_nil (s : Schema) (v : Value) : encodeValue s v ≠ [] := by
  rw [encodeValue_def]
  have hne := Schema.tags_ne_nil s
  have hd := List.dropLast_append_getLast hne
  rw [← hd, wrapTags_concat]
  simp [Tag.value]

theorem readTagStep_ok (t : Tag) (inner extra : List Nat) (hb : inner.length < lenBound) :
    readTagStep t (t.value ++ (encode_length inner.length ++ (inner ++ extra))) =
      .ok (inner.length, inner ++ extra) := by
  unfold readTagStep
  rw [List.take_left, if_neg (by simp)]
  rw [List.drop_left]
  rw [read_length_encode_length inner.length (inner ++ extra) hb]
  dsimp only
  rw [if_neg (by simp)]

theorem readTagsLoop_wrapTags (c : List Nat) :
    ∀ (tags : List Tag), (wrapTags tags c).length < lenBound →
      ∀ (t0 : Tag) (ts0 : List Tag) (extra : List Nat), tags.reverse = t0 :: ts0 →
        readTagsLoop t0 ts0 (wrapTags tags c ++ extra) = .ok (c.length, c ++ extra) := by
  intro tags
  induction tags using List.reverseRecOn with
  | nil =>
    intro _ t0 ts0 extra hrev
    simp at hrev
  | append_singleton ts t ih =>
    intro hb t0 ts0 extra hrev
    rw [List.reverse_append] at hrev
    simp only [List.reverse_cons, List.reverse_nil, List.nil_append,
      List.singleton_append, List.cons.injEq] at hrev
    obtain ⟨rfl, rfl⟩ := hrev
    have hmono := wrapTags_length_lt ts t c
    have hWb : (wrapTags ts c).length < lenBound := by omega
    have hassoc : wrapTags (ts ++ [t]) c ++ extra =
        t.value ++ (encode_length (wrapTags ts c).length ++ (wrapTags ts c ++ extra)) := by
      rw [wrapTags_concat]
      simp [List.append_assoc]
    rw [hassoc]
    unfold readTagsLoop
    rw [readTagStep_ok t (wrapTags ts c) extra hWb]
    dsimp only
    cases hts : ts.reverse with
    | nil =>
      have : ts = [] := List.reverse_eq_nil_iff.mp hts
      subst this
      rw [wrapTags_nil]
    | cons t1 ts1 =>
      exact ih hWb t1 ts1 extra hts

theorem read_encode (s : Schema) (v : Value) (strict : Bool) (extra : List Nat)
    (hb : (encodeValue s v).length < lenBound) :
    readVal s (encodeValue s v ++ extra) strict =
      (contentDecode s (encodeContent s v) strict).map fun w => (w, extra) := by
  unfold readVal readFrame
  cases hrev : s.tags.reverse with
  | nil => exact absurd (List.reverse_eq_nil_iff.mp hrev) (Schema.tags_ne_nil s)
  | cons t0 ts0 =>
    rw [encodeValue_def] at hb
    have hloop := readTagsLoop_wrapTags (encodeContent s v) s.tags hb t0 ts0 extra hrev
    rw [encodeValue_def]
    dsimp only
    rw [hloop]
    dsimp only
    rw [List.take_left, List.drop_left]

/-! ### Canonical forms -/

theorem canon_seqOf (e : Schema) (vs : List Value) :
    canon (.seqOf e) (.list vs) = .list (vs.map fun x => canon e x) := by
  rw [canon]

theorem canon_setOf (e : Schema) (vs : List Value) :
    canon (.setOf e) (.list vs) =
      .list (List.insertionSort (encLe e) (vs.map fun x => canon e x)) := by
  rw [canon]

theorem canon_explicit (n c : Nat) (inner : Schema) (v : Value) :
    canon (.explicitTag n c inner) v = canon inner v := by
  rw [canon]

theorem canon_implicit (n c : Nat) (inner : Schema) (v : Value) :
    canon (.implicitTag n c inner) v = canon inner v := by
  rw [canon]

theorem canon_boolean (v : Value) : canon .boolean v = v := by simp [canon]

theorem canon_integer (v : Value) : canon .integer v = v := by simp [canon]

theorem canon_asn1String (n : Nat) (v : Value) : canon (.asn1String n) v = v := by
  simp [canon]

theorem canon_bitString (v : Value) : canon .bitString v = v := by simp [canon]

theorem conforms_explicit (v : Value) (n c : Nat) (inner : Schema) :
    v.conforms (.explicitTag n c inner) = v.conforms inner := by
  cases v <;> simp [Value.conforms]

theorem conforms_implicit (v : Value) (n c : Nat) (inner : Schema) :
    v.conforms (.implicitTag n c inner) = v.conforms inner := by
  cases v <;> simp [Value.conforms]

theorem orderedInsert_map_canon (e : Schema) (a : Value) :
    ∀ l : List Value,
      encodeValue e (canon e a) = encodeValue e a →
      (∀ y ∈ l, encodeValue e (canon e y) = encodeValue e y) →
      List.orderedInsert (encLe e) (canon e a) (l.map fun x => canon e x) =
        (List.orderedInsert (encLe e) a l).map fun x => canon e x := by
  intro l
  induction l with
  | nil => intro _ _; rfl
  | cons b t ih =>
    intro ha hl
    have hb := hl b (by simp)
    have hcond : encLe e (canon e a) (canon e b) ↔ encLe e a b := by
      unfold encLe strLeP
      rw [ha, hb]
    by_cases h : encLe e a b
    · rw [List.map_cons, List.orderedInsert, List.orderedInsert,
        if_pos (hcond.mpr h), if_pos h]
      simp
    · rw [List.map_cons, List.orderedInsert, List.orderedInsert,
        if_neg (fun hc => h (hcond.mp hc)), if_neg h]
      rw [List.map_cons, ih ha fun y hy => hl y (by simp [hy])]

theorem insertionSort_map_canon (e : Schema) :
    ∀ l : List Value,
      (∀ y ∈ l, encodeValue e (canon e y) = encodeValue e y) →
      List.insertionSort (encLe e) (l.map fun x => canon e x) =
        (List.insertionSort (encLe e) l).map fun x => canon e x := by
  intro l
  induction l with
  | nil => intro _; rfl
  | cons a t ih =>
    intro hl
    rw [List.map_cons, List.insertionSort, List.insertionSort,
      ih fun y hy => hl y (by simp [hy])]
    exact orderedInsert_map_canon e a (List.insertionSort (encLe e) t)
      (hl a (by simp))
      (fun y hy => hl y (by simp [(List.mem_insertionSort (encLe e)).mp hy]))

theorem encodeContent_canon :
    ∀ (s : Schema) (v : Value), v.conforms s = true →
      encodeContent s (canon s v) = encodeContent s v := by
  intro s
  induction s with
  | boolean => intro v _; rw [canon_boolean]
  | integer => intro v _; rw [canon_integer]
  | asn1String n => intro v _; rw [canon_asn1String]
  | bitString => intro v _; rw [canon_bitString]
  | seqOf e ih =>
    intro v hc
    cases v with
    | list vs =>
      rw [canon_seqOf]
      simp only [Value.conforms, List.all_eq_true] at hc
      simp only [encodeContent]
      congr 1
      rw [List.map_map]
      apply List.map_congr_left
      intro x hx
      show encodeValue e (canon e x) = encodeValue e x
      rw [encodeValue_def, encodeValue_def, ih x (hc x hx)]
    | bool b => simp [Value.conforms] at hc
    | int i => simp [Value.conforms] at hc
    | str s => simp [Value.conforms] at hc
    | bits s => simp [Value.conforms] at hc
  | setOf e ih =>
    intro v hc
    cases v with
    | list vs =>
      rw [canon_setOf]
      simp only [Value.conforms, List.all_eq_true] at hc
      simp only [encodeContent]
      congr 1
      have hpt : ∀ y ∈ vs, encodeValue e (canon e y) = encodeValue e y := by
        intro y hy
        rw [encodeValue_def, encodeValue_def, ih y (hc y hy)]
      rw [insertionSort_map_canon e vs hpt]
      rw [List.map_map]
      have h1 : (List.insertionSort (encLe e) vs).map
            ((fun x => encodeValue e x) ∘ fun x => canon e x) =
          (List.insertionSort (encLe e) vs).map fun x => encodeValue e x := by
        apply List.map_congr_left
        intro x hx
        exact hpt x ((List.mem_insertionSort (encLe e)).mp hx)
      rw [h1, ← insertionSort_map_key]
      exact List.Sorted.insertionSort_eq (List.sorted_insertionSort strLeP _)
    | bool b => simp [Value.conforms] at hc
    | int i => simp [Value.conforms] at hc
    | str s => simp [Value.conforms] at hc
    | bits s => simp [Value.conforms] at hc
  | explicitTag n c inner ih =>
    intro v hc
    rw [conforms_explicit] at hc
    rw [canon_explicit]
    simp only [encodeContent]
    exact ih v hc
  | implicitTag n c inner ih =>
    intro v hc
    rw [conforms_implicit] at hc
    rw [canon_implicit]
    simp only [encodeContent]
    exact ih v hc

theorem encodeValue_canon (s : Schema) (v : Value) (hc : v.conforms s = true) :
    encodeValue s (canon s v) = encodeValue s v := by
  rw [encodeValue_def, encodeValue_def, encodeContent_canon s v hc]

theorem length_le_flatten {x : List Nat} :
    ∀ {l : List (List Nat)}, x ∈ l → x.length ≤ l.flatten.length := by
  intro l
  induction l with
  | nil => intro h; simp at h
  | cons y t ih =>
    intro hx
    rcases List.mem_cons.mp hx with rfl | hx
    · simp [List.flatten_cons]
    · have := ih hx
      simp only [List.flatten_cons, List.length_append]
      omega

theorem encodeContent_length_le (s : Schema) (v : Value) :
    (encodeContent s v).length ≤ (encodeValue s v).length := by
  rw [encodeValue_def]
  exact wrapTags_length_le s.tags (encodeContent s v)

theorem repeatedDecode_eq (e : Schema) (buf : List Nat) (strict : Bool)
    (hne : buf ≠ []) :
    repeatedDecode e buf strict =
      match readVal e buf strict with
      | .error err => .error err
      | .ok (v, rest) => (repeatedDecode e rest strict).map (v :: ·) := by
  rw [repeatedDecode]
  rw [dif_neg hne]
  unfold readVal
  cases hf : readFrame e buf with
  | error err => rfl
  | ok p =>
    obtain ⟨len, buf'⟩ := p
    dsimp only
    cases hc : contentDecode e (buf'.take len) strict with
    | error err => rfl
    | ok v => rfl

theorem repeatedDecode_flatten (e : Schema)
    (ihe : ∀ x : Value, x.conforms e = true → (encodeValue e x).length < lenBound →
      contentDecode e (encodeContent e x) true = .ok (canon e x)) :
    ∀ ws : List Value, (∀ x ∈ ws, x.conforms e = true) →
      (∀ x ∈ ws, (encodeValue e x).length < lenBound) →
      repeatedDecode e ((ws.map fun x => encodeValue e x).flatten) true =
        .ok (ws.map fun x => canon e x) := by
  intro ws
  induction ws with
  | nil =>
    intro _ _
    rw [repeatedDecode]
    simp
  | cons x t iht =>
    intro hcf hbd
    have hx := hcf x (by simp)
    have hbx := hbd x (by simp)
    rw [List.map_cons, List.flatten_cons]
    have hne : encodeValue e x ++ (t.map fun y => encodeValue e y).flatten ≠ [] := by
      intro hcon
      exact encodeValue_ne_nil e x (List.append_eq_nil.mp hcon).1
    rw [repeatedDecode_eq e _ true hne]
    rw [read_encode e x true _ hbx]
    rw [ihe x hx hbx]
    dsimp only [Except.map]
    rw [iht (fun y hy => hcf y (by simp [hy])) (fun y hy => hbd y (by simp [hy]))]
    rfl

theorem contentDecode_encode :
    ∀ (s : Schema) (v : Value), v.conforms s = true →
      (encodeValue s v).length < lenBound →
      contentDecode s (encodeContent s v) true = .ok (canon s v) := by
  intro s
  induction s with
  | boolean =>
    intro v hc _
    cases v with
    | bool b =>
      simp only [encodeContent, contentDecode]
      rw [booleanDecode_encode]
      rw [canon_boolean]
      rfl
    | int i => simp [Value.conforms] at hc
    | str s => simp [Value.conforms] at hc
    | bits s => simp [Value.conforms] at hc
    | list l => simp [Value.conforms] at hc
  | integer =>
    intro v hc _
    cases v with
    | int i =>
      simp only [encodeContent, contentDecode]
      rw [decode_int_encode_int]
      rw [canon_integer]
      rfl
    | bool b => simp [Value.conforms] at hc
    | str s => simp [Value.conforms] at hc
    | bits s => simp [Value.conforms] at hc
    | list l => simp [Value.conforms] at hc
  | asn1String n =>
    intro v hc _
    cases v with
    | str s =>
      simp only [encodeContent, contentDecode]
      rw [canon_asn1String]
    | bool b => simp [Value.conforms] at hc
    | int i => simp [Value.conforms] at hc
    | bits s => simp [Value.conforms] at hc
    | list l => simp [Value.conforms] at hc
  | bitString =>
    intro v hc _
    cases v with
    | bits s =>
      simp only [encodeContent, contentDecode]
      rw [bitStringDecode_encode]
      rw [canon_bitString]
      rfl
    | bool b => simp [Value.conforms] at hc
    | int i => simp [Value.conforms] at hc
    | str s => simp [Value.conforms] at hc
    | list l => simp [Value.conforms] at hc
  | seqOf e ih =>
    intro v hc hb
    cases v with
    | list vs =>
      simp only [Value.conforms, List.all_eq_true] at hc
      simp only [encodeContent, contentDecode]
      have hbd : ∀ x ∈ vs, (encodeValue e x).length < lenBound := by
        intro x hx
        have h1 : (encodeValue e x).length ≤
            ((vs.map fun y => encodeValue e y).flatten).length :=
          length_le_flatten (List.mem_map_of_mem _ hx)
        have h2 := encodeContent_length_le (.seqOf e) (.list vs)
        simp only [encodeContent] at h2
        omega
      rw [repeatedDecode_flatten e ih vs hc hbd]
      rw [canon_seqOf]
      rfl
    | bool b => simp [Value.conforms] at hc
    | int i => simp [Value.conforms] at hc
    | str s => simp [Value.conforms] at hc
    | bits s => simp [Value.conforms] at hc
  | setOf e ih =>
    intro v hc hb
    cases v with
    | list vs =>
      simp only [Value.conforms, List.all_eq_true] at hc
      simp only [encodeContent, contentDecode]
      rw [insertionSort_map_key e vs]
      have hmem : ∀ x ∈ List.insertionSort (encLe e) vs, x ∈ vs := by
        intro x hx
        exact (List.mem_insertionSort (encLe e)).mp hx
      have hbd : ∀ x ∈ List.insertionSort (encLe e) vs,
          (encodeValue e x).length < lenBound := by
        intro x hx
        have h1 : (encodeValue e x).length ≤
            (((List.insertionSort (encLe e) vs).map fun y => encodeValue e y).flatten).length :=
          length_le_flatten (List.mem_map_of_mem _ hx)
        have h2 := encodeContent_length_le (.setOf e) (.list vs)
        simp only [encodeContent] at h2
        rw [insertionSort_map_key e vs] at h2
        omega
      rw [repeatedDecode_flatten e ih (List.insertionSort (encLe e) vs)
        (fun x hx => hc x (hmem x hx)) hbd]
      rw [canon_setOf]
      have hpt : ∀ y ∈ vs, encodeValue e (canon e y) = encodeValue e y := by
        intro y hy
        exact encodeValue_canon e y (hc y hy)
      rw [insertionSort_map_canon e vs hpt]
      rfl
    | bool b => simp [Value.conforms] at hc
    | int i => simp [Value.conforms] at hc
    | str s => simp [Value.conforms] at hc
    | bits s => simp [Value.conforms] at hc
  | explicitTag n c inner ih =>
    intro v hc hb
    rw [conforms_explicit] at hc
    simp only [encodeContent, contentDecode]
    rw [canon_explicit]
    apply ih v hc
    rw [encodeValue_def] at hb ⊢
    have htags : Schema.tags (.explicitTag n c inner) = inner.tags ++ [⟨n, c, true⟩] := rfl
    rw [htags] at hb
    have hcontent : encodeContent (.explicitTag n c inner) v = encodeContent inner v := by
      simp only [encodeContent]
    rw [hcontent] at hb
    have := wrapTags_length_lt inner.tags ⟨n, c, true⟩ (encodeContent inner v)
    omega
  | implicitTag n c inner ih =>
    intro v hc hb
    rw [conforms_implicit] at hc
    simp only [encodeContent, contentDecode]
    rw [canon_implicit]
    apply ih v hc
    rw [encodeValue_def] at hb ⊢
    have htags : Schema.tags (.implicitTag n c inner) =
        inner.tags.dropLast ++
          [⟨n, c, (inner.tags.getLastD ⟨0, 0, false⟩).constructed⟩] := rfl
    rw [htags] at hb
    have hcontent : encodeContent (.implicitTag n c inner) v = encodeContent inner v := by
      simp only [encodeContent]
    rw [hcontent] at hb
    have hne := Schema.tags_ne_nil inner
    have hdec := List.dropLast_append_getLast hne
    have h3 : (wrapTags inner.tags (encodeContent inner v)).length =
        (wrapTags (inner.tags.dropLast ++ [inner.tags.getLast hne])
          (encodeContent inner v)).length := by
      rw [hdec]
    rw [h3]
    rw [wrapTags_concat_length] at hb ⊢
    omega

theorem readVal_encode (s : Schema) (v : Value) (extra : List Nat)
    (hc : v.conforms s = true) (hb : (encodeValue s v).length < lenBound) :
    readVal s (encodeValue s v ++ extra) true = .ok (canon s v, extra) := by
  rw [read_encode s v true extra hb, contentDecode_encode s v hc hb]
  rfl

theorem decode_encode (s : Schema) (v : Value)
    (hc : v.conforms s = true) (hb : (encodeValue s v).length < lenBound) :
    decode s (encodeValue s v) true = .ok (canon s v) := by
  unfold decode
  have h := readVal_encode s v [] hc hb
  rw [List.append_nil] at h
  rw [h]
  rfl

theorem canonicalOrdered_seqOf (e : Schema) (vs : List Value) :
    canonicalOrdered (.seqOf e) (.list vs) = ∀ x ∈ vs, canonicalOrdered e x := by
  rw [canonicalOrdered]

theorem canonicalOrdered_setOf (e : Schema) (vs : List Value) :
    canonicalOrdered (.setOf e) (.list vs) =
      ((∀ x ∈ vs, canonicalOrdered e x) ∧ List.Sorted (encLe e) vs) := by
  rw [canonicalOrdered]

theorem canonicalOrdered_explicit (n c : Nat) (inner : Schema) (v : Value) :
    canonicalOrdered (.explicitTag n c inner) v = canonicalOrdered inner v := by
  rw [canonicalOrdered]

theorem canonicalOrdered_implicit (n c : Nat) (inner : Schema) (v : Value) :
    canonicalOrdered (.implicitTag n c inner) v = canonicalOrdered inner v := by
  rw [canonicalOrdered]

theorem canon_eq_of_canonical :
    ∀ (s : Schema) (v : Value), v.conforms s = true → canonicalOrdered s v →
      canon s v = v := by
  intro s
  induction s with
  | boolean => intro v _ _; rw [canon_boolean]
  | integer => intro v _ _; rw [canon_integer]
  | asn1String n => intro v _ _; rw [canon_asn1String]
  | bitString => intro v _ _; rw [canon_bitString]
  | seqOf e ih =>
    intro v hc ho
    cases v with
    | list vs =>
      rw [canonicalOrdered_seqOf] at ho
      simp only [Value.conforms, List.all_eq_true] at hc
      rw [canon_seqOf]
      congr 1
      calc vs.map (fun x => canon e x) = vs.map id := by
            apply List.map_congr_left
            intro x hx
            exact ih x (hc x hx) (ho x hx)
        _ = vs := List.map_id vs
    | bool b => simp [Value.conforms] at hc
    | int i => simp [Value.conforms] at hc
    | str s => simp [Value.conforms] at hc
    | bits s => simp [Value.conforms] at hc
  | setOf e ih =>
    intro v hc ho
    cases v with
    | list vs =>
      rw [canonicalOrdered_setOf] at ho
      obtain ⟨hel, hsorted⟩ := ho
      simp only [Value.conforms, List.all_eq_true] at hc
      rw [canon_setOf]
      congr 1
      have h1 : vs.map (fun x => canon e x) = vs := by
        calc vs.map (fun x => canon e x) = vs.map id := by
              apply List.map_congr_left
              intro x hx
              exact ih x (hc x hx) (hel x hx)
          _ = vs := List.map_id vs
      rw [h1]
      exact List.Sorted.insertionSort_eq hsorted
    | bool b => simp [Value.conforms] at hc
    | int i => simp [Value.conforms] at hc
    | str s => simp [Value.conforms] at hc
    | bits s => simp [Value.conforms] at hc
  | explicitTag n c inner ih =>
    intro v hc ho
    rw [conforms_explicit] at hc
    rw [canonicalOrdered_explicit] at ho
    rw [canon_explicit]
    exact ih v hc ho
  | implicitTag n c inner ih =>
    intro v hc ho
    rw [conforms_implicit] at hc
    rw [canonicalOrdered_implicit] at ho
    rw [canon_implicit]
    exact ih v hc ho

/-! ### Concrete evaluations for small integers -/

theorem lt_lenBound_of_le (n : Nat) (h : n ≤ 255) : n < lenBound := by
  unfold lenBound
  have h1 : (256 : Nat) ^ 1 ≤ 256 ^ 127 := Nat.pow_le_pow_right (by norm_num) (by norm_num)
  simp only [pow_one] at h1
  omega

theorem intLoopBytes_small (v : Int) (h1 : 1 ≤ v) (h2 : v < 256) :
    intLoopBytes v = [v.toNat] := by
  obtain ⟨hid, hr0, hr1⟩ := intLoop_step v
  have hq : Int.fdiv v 256 = 0 := by omega
  have hr : Int.fmod v 256 = v := by omega
  rw [intLoopBytes, if_neg (by omega)]
  rw [hq, hr]
  rw [intLoopBytes]
  simp

theorem encode_int_body_small (v : Int) (h1 : 1 ≤ v) (h2 : v ≤ 127) :
    encode_int_body v true = [v.toNat] := by
  rw [encode_int_body_eq v (by omega) (by omega)]
  rw [intLoopBytes_small v h1 (by omega)]
  rw [if_neg (by rintro ⟨hc, _⟩; omega)]
  rw [if_neg (by rintro ⟨_, hc⟩; simp only [List.getLastD_cons, List.getLastD_nil] at hc; omega)]
  rfl

theorem encodeValue_int_small (v : Int) (h1 : 1 ≤ v) (h2 : v ≤ 127) :
    encodeValue .integer (.int v) = [2, 1, v.toNat] := by
  rw [encodeValue_def]
  have hcontent : encodeContent .integer (.int v) = encode_int_body v true := by
    simp only [encodeContent]
  rw [hcontent, encode_int_body_small v h1 h2]
  rfl

theorem canonicalOrdered_integer (v : Value) : canonicalOrdered .integer v := by
  simp [canonicalOrdered]

theorem enc_int5 : encodeValue .integer (.int 5) = [2, 1, 5] := by
  rw [encodeValue_int_small 5 (by norm_num) (by norm_num)]
  rfl

theorem enc_int1 : encodeValue .integer (.int 1) = [2, 1, 1] := by
  rw [encodeValue_int_small 1 (by norm_num) (by norm_num)]
  rfl

theorem enc_map51 :
    [Value.int 5, Value.int 1].map (fun x => encodeValue .integer x) =
      [[2, 1, 5], [2, 1, 1]] := by
  rw [List.map_cons, List.map_cons, List.map_nil, enc_int5, enc_int1]

theorem enc_sort51 :
    List.insertionSort strLeP [[2, 1, 5], [2, 1, 1]] = [[2, 1, 1], [2, 1, 5]] := by
  decide

theorem encContent_set51 :
    encodeContent (.setOf .integer) (.list [.int 5, .int 1]) = [2, 1, 1, 2, 1, 5] := by
  simp only [encodeContent]
  rw [enc_map51, enc_sort51]
  rfl

theorem encValue_set51 :
    encodeValue (.setOf .integer) (.list [.int 5, .int 1]) =
      [49, 6, 2, 1, 1, 2, 1, 5] := by
  rw [encodeValue_def, encContent_set51]
  rfl

theorem encLe_not_51 : ¬ encLe .integer (.int 5) (.int 1) := by
  unfold encLe strLeP
  rw [enc_int5, enc_int1]
  decide

theorem canon_set51 :
    canon (.setOf .integer) (.list [.int 5, .int 1]) = .list [.int 1, .int 5] := by
  rw [canon_setOf]
  rw [List.map_cons, List.map_cons, List.map_nil, canon_integer, canon_integer]
  simp only [List.insertionSort, List.orderedInsert]
  rw [if_neg encLe_not_51]

/-- Claim C1 (amended): for every schema kind in the universe and every
semantic value `v` constructible for it (with every content length below
the 127-length-octet bound), `decode(encode(v), strict=true)` equals the
canonical form of `v`, in which every `SetOf` element list is re-sorted
into ascending order of the elements' encodings; it equals `v` itself
exactly when every `SetOf` element list in `v` already is in that order —
in particular for every schema not involving `SetOf`.  For a `SetOf`
constructed from elements out of that order the round-trip does not return
`v`, because value equality of a `SetOf` is order-dependent list equality
(types.py line 1015). -/
theorem C1_round_trip (s : Schema) (v : Value) (hc : v.conforms s = true)
    (hb : (encodeValue s v).length < lenBound) :
    decode s (encodeValue s v) true = .ok (canon s v) ∧
      (canonicalOrdered s v → decode s (encodeValue s v) true = .ok v) := by
  refine ⟨decode_encode s v hc hb, fun ho => ?_⟩
  rw [decode_encode s v hc hb, canon_eq_of_canonical s v hc ho]

/-- Witness for C1: the round-trip at the `SetOf Integer` value `[1, 5]`,
whose elements are already in ascending encoded order. -/
theorem C1_round_trip_witness :
    (Value.list [.int 1, .int 5]).conforms (.setOf .integer) = true ∧
      (encodeValue (.setOf .integer) (.list [.int 1, .int 5])).length < lenBound ∧
      decode (.setOf .integer) (encodeValue (.setOf .integer) (.list [.int 1, .int 5]))
        true = .ok (.list [.int 1, .int 5]) := by
  have hc : (Value.list [.int 1, .int 5]).conforms (.setOf .integer) = true := by decide
  have hmap : [Value.int 1, Value.int 5].map (fun x => encodeValue .integer x) =
      [[2, 1, 1], [2, 1, 5]] := by
    rw [List.map_cons, List.map_cons, List.map_nil, enc_int1, enc_int5]
  have hcontent : encodeContent (.setOf .integer) (.list [.int 1, .int 5]) =
      [2, 1, 1, 2, 1, 5] := by
    simp only [encodeContent]
    rw [hmap]
    have hs : List.insertionSort strLeP [[2, 1, 1], [2, 1, 5]] =
        [[2, 1, 1], [2, 1, 5]] := by decide
    rw [hs]
    rfl
  have henc : encodeValue (.setOf .integer) (.list [.int 1, .int 5]) =
      [49, 6, 2, 1, 1, 2, 1, 5] := by
    rw [encodeValue_def, hcontent]
    rfl
  have hb : (encodeValue (.setOf .integer) (.list [.int 1, .int 5])).length < lenBound := by
    rw [henc]
    exact lt_lenBound_of_le 8 (by norm_num)
  have hle15 : encLe .integer (.int 1) (.int 5) := by
    unfold encLe strLeP
    rw [enc_int1, enc_int5]
    decide
  have ho : canonicalOrdered (.setOf .integer) (.list [.int 1, .int 5]) := by
    rw [canonicalOrdered_setOf]
    refine ⟨fun x _ => canonicalOrdered_integer x, ?_⟩
    simp [List.Sorted, List.pairwise_cons, hle15]
  exact ⟨hc, hb, (C1_round_trip (.setOf .integer) (.list [.int 1, .int 5]) hc hb).2 ho⟩

/-- Counterexample to C1 as stated: the `SetOf Integer` value constructed
from the out-of-order elements `[5, 1]` conforms to its schema, yet
`decode(encode(v), strict=true)` returns the re-sorted list `[1, 5]`, which
is not equal (by order-dependent semantic value) to `[5, 1]`. -/
theorem C1_counterexample :
    (Value.list [.int 5, .int 1]).conforms (.setOf .integer) = true ∧
      decode (.setOf .integer) (encodeValue (.setOf .integer) (.list [.int 5, .int 1]))
        true ≠ .ok (.list [.int 5, .int 1]) := by
  have hc : (Value.list [.int 5, .int 1]).conforms (.setOf .integer) = true := by decide
  have hb : (encodeValue (.setOf .integer) (.list [.int 5, .int 1])).length < lenBound := by
    rw [encValue_set51]
    exact lt_lenBound_of_le 8 (by norm_num)
  refine ⟨hc, ?_⟩
  rw [decode_encode (.setOf .integer) (.list [.int 5, .int 1]) hc hb, canon_set51]
  intro hcon
  simp only [Except.ok.injEq, Value.list.injEq, List.cons.injEq, Value.int.injEq] at hcon
  omega

/-!
### The claims
-/

/-- Claim C5: `decode_int` fails on an empty input, on a redundant leading
0x00 byte followed by a byte below 128, and (signed only) on a redundant
leading 0xFF byte followed by a byte at or above 128; these rejections are
unconditional — `decode_int` has no strict flag and `Integer`'s content
decoder ignores its strict flag.  In particular `0x00 0x01` fails in both
modes, `0xFF 0x80` fails signed, and `0xFF 0x80` succeeds unsigned (the
rejection is signed-only). -/
theorem C5_decode_int_minimality :
    (∀ signed : Bool, decode_int [] signed = .error .malformed) ∧
    (∀ (b : Nat) (rest : List Nat) (signed : Bool), b < 128 →
      decode_int (0 :: b :: rest) signed = .error .malformed) ∧
    (∀ (b : Nat) (rest : List Nat), 128 ≤ b →
      decode_int (0xff :: b :: rest) true = .error .malformed) ∧
    (∀ (buf : List Nat) (strict : Bool),
      contentDecode .integer buf strict = (decode_int buf true).map .int) ∧
    decode_int [0, 1] true = .error .malformed ∧
    decode_int [0, 1] false = .error .malformed ∧
    decode_int [255, 128] true = .error .malformed ∧
    decode_int [255, 128] false = .ok 65408 := by
  refine ⟨fun _ => rfl, ?_, ?_, ?_, rfl, rfl, rfl, ?_⟩
  · intro b rest signed hb
    simp only [decode_int]
    rw [if_pos (by simp [hb])]
  · intro b rest hb
    simp only [decode_int]
    rw [if_neg (by simp)]
    rw [if_pos (by simp [hb])]
  · intro buf strict
    simp only [contentDecode]
  · show decode_int [255, 128] false = .ok 65408
    simp only [decode_int]
    norm_num

/-- Witness for C5 at concrete inputs. -/
theorem C5_witness :
    decode_int [0, 5] true = .error .malformed ∧
      decode_int [0xff, 200, 7] true = .error .malformed := by
  exact ⟨C5_decode_int_minimality.2.1 5 [] true (by norm_num),
    C5_decode_int_minimality.2.2.1 200 [7] (by norm_num)⟩

/-- Claim C7: Boolean content decoding — `0xFF` is true and `0x00` is false
in both modes; any other single byte fails strictly and is true leniently;
content that is not exactly one byte fails in both modes. -/
theorem C7_boolean :
    (∀ strict : Bool, booleanDecodeValue [0xff] strict = .ok true) ∧
    (∀ strict : Bool, booleanDecodeValue [0x00] strict = .ok false) ∧
    (∀ b : Nat, b ≠ 0 → b ≠ 0xff →
      booleanDecodeValue [b] true = .error .malformed ∧
      booleanDecodeValue [b] false = .ok true) ∧
    (∀ (buf : List Nat) (strict : Bool), buf.length ≠ 1 →
      booleanDecodeValue buf strict = .error .malformed) := by
  refine ⟨?_, ?_, ?_, ?_⟩
  · intro strict; cases strict <;> rfl
  · intro strict; cases strict <;> rfl
  · intro b h0 h255
    constructor
    · unfold booleanDecodeValue
      rw [if_neg (by simp)]
      rw [if_pos (by simp [h0, h255])]
    · unfold booleanDecodeValue
      rw [if_neg (by simp)]
      rw [if_neg (by simp)]
      simp [h0]
  · intro buf strict h
    unfold booleanDecodeValue
    rw [if_pos h]

/-- Witness for C7: the byte `0x01` decodes to true leniently and fails
strictly; empty content fails. -/
theorem C7_witness :
    booleanDecodeValue [1] true = .error .malformed ∧
      booleanDecodeValue [1] false = .ok true ∧
      booleanDecodeValue [] true = .error .malformed := by
  have h := C7_boolean.2.2.1 1 (by norm_num) (by norm_num)
  exact ⟨h.1, h.2, C7_boolean.2.2.2 [] true (by norm_num)⟩

/-- Claim C8: BitString — encoding the 5-bit value 10110 yields pad count 3
and one content byte 0b10110000 (=176); decoding those bytes yields 10110
again; decoding fails in both modes on empty content, a pad count above 7,
or any padding bit set. -/
theorem C8_bitstring :
    bitStringEncodeValue [true, false, true, true, false] = [3, 176] ∧
    (∀ strict : Bool,
      bitStringDecodeValue [3, 176] strict = .ok [true, false, true, true, false]) ∧
    (∀ strict : Bool, bitStringDecodeValue [] strict = .error .malformed) ∧
    (∀ (pad : Nat) (bytes : List Nat) (strict : Bool), 7 < pad →
      bitStringDecodeValue (pad :: bytes) strict = .error .malformed) ∧
    (∀ (pad : Nat) (bytes : List Nat) (strict : Bool), pad ≠ 0 → pad ≤ 7 →
      ((unpackBits bytes).drop ((unpackBits bytes).length - pad)).any (· = true) = true →
      bitStringDecodeValue (pad :: bytes) strict = .error .malformed) := by
  refine ⟨?_, ?_, ?_, ?_, ?_⟩
  · have hp : packBits [true, false, true, true, false, false, false, false] = [176] := by
      rw [packBits]
      rw [if_neg (by simp)]
      rw [packBits]
      simp
      decide
    unfold bitStringEncodeValue
    norm_num [List.replicate]
    exact hp
  · intro strict
    rfl
  · intro strict
    rfl
  · intro pad bytes strict h
    unfold bitStringDecodeValue
    dsimp only
    rw [if_pos h]
  · intro pad bytes strict h0 h7 hbit
    unfold bitStringDecodeValue
    dsimp only
    rw [if_neg (by omega)]
    rw [if_pos h0]
    rw [if_pos (Or.inr hbit)]

/-- Witness for C8: the content byte 0b10110001 (=177) under pad count 3
has a padding bit set and is rejected; pad count 8 is rejected. -/
theorem C8_witness :
    bitStringDecodeValue [3, 177] true = .error .malformed ∧
      bitStringDecodeValue [8, 176] false = .error .malformed := by
  refine ⟨C8_bitstring.2.2.2.2 3 [177] true (by norm_num) (by norm_num) (by decide),
    C8_bitstring.2.2.2.1 8 [176] false (by norm_num)⟩

/-- Claim C6: `SetOf._encode_value` produces the concatenation of the
elements' individual encodings re-sorted in ascending lexicographic byte
order; the sorted list is a permutation of the element encodings (so
duplicates are preserved), and the output depends only on the multiset of
element encodings, not on construction order. -/
theorem C6_setof_encode (e : Schema) (vs : List Value) :
    (∃ l : List (List Nat),
      encodeContent (.setOf e) (.list vs) = l.flatten ∧
      List.Sorted strLeP l ∧
      l.Perm (vs.map fun x => encodeValue e x)) ∧
    (∀ vs' : List Value,
      (vs'.map fun x => encodeValue e x).Perm (vs.map fun x => encodeValue e x) →
      encodeContent (.setOf e) (.list vs') = encodeContent (.setOf e) (.list vs)) := by
  constructor
  · refine ⟨List.insertionSort strLeP (vs.map fun x => encodeValue e x), ?_, ?_, ?_⟩
    · simp only [encodeContent]
    · exact List.sorted_insertionSort strLeP _
    · exact List.perm_insertionSort strLeP _
  · intro vs' hperm
    simp only [encodeContent]
    congr 1
    have h1 := List.sorted_insertionSort strLeP (vs'.map fun x => encodeValue e x)
    have h2 := List.sorted_insertionSort strLeP (vs.map fun x => encodeValue e x)
    have hp : (List.insertionSort strLeP (vs'.map fun x => encodeValue e x)).Perm
        (List.insertionSort strLeP (vs.map fun x => encodeValue e x)) :=
      ((List.perm_insertionSort strLeP _).trans hperm).trans
        (List.perm_insertionSort strLeP _).symm
    exact List.eq_of_perm_of_sorted hp h1 h2

/-- Witness for C6: the `SetOf Integer` elements `[1, 5]` and `[5, 1]`
have permuted encodings, hence identical encoded content. -/
theorem C6_witness :
    ([Value.int 1, Value.int 5].map fun x => encodeValue .integer x).Perm
        ([Value.int 5, Value.int 1].map fun x => encodeValue .integer x) ∧
      encodeContent (.setOf .integer) (.list [.int 1, .int 5]) =
        encodeContent (.setOf .integer) (.list [.int 5, .int 1]) := by
  have hperm : ([Value.int 1, Value.int 5].map fun x => encodeValue .integer x).Perm
      ([Value.int 5, Value.int 1].map fun x => encodeValue .integer x) := by
    rw [List.map_cons, List.map_cons, List.map_nil, List.map_cons, List.map_cons,
      List.map_nil, enc_int1, enc_int5]
    decide
  exact ⟨hperm, (C6_setof_encode .integer [.int 5, .int 1]).2 [.int 1, .int 5] hperm⟩

/-- Claim C2 — refuted by the code: `Sequence.__setitem__` stores into
`self._values` (types.py line 1094, note the trailing `s`), a fresh
attribute distinct from the `self._value` dict that `__getitem__` reads,
so after `s[k] = v` the visible field still holds its old value.  With one
Integer field `n` initialised to 1, setting `n := 5` succeeds but
`s["n"]` still returns 1, not the converted value 5. -/
theorem C2_setitem_lost :
    seqMake [⟨"n", .integer, false, none⟩] [("n", .int 1)] =
        .ok ⟨[("n", some (.int 1))], []⟩ ∧
      seqSetItem [⟨"n", .integer, false, none⟩] ⟨[("n", some (.int 1))], []⟩ "n"
          (some (.int 5)) =
        .ok ⟨[("n", some (.int 1))], [("n", some (.int 5))]⟩ ∧
      seqGetItem ⟨[("n", some (.int 1))], [("n", some (.int 5))]⟩ "n" =
        .ok (some (.int 1)) ∧
      seqGetItem ⟨[("n", some (.int 1))], [("n", some (.int 5))]⟩ "n" ≠
        .ok (some (.int 5)) := by
  refine ⟨rfl, rfl, rfl, ?_⟩
  intro h
  have h2 := Except.ok.inj h
  simp only [Option.some.injEq, Value.int.injEq] at h2
  omega

/-- Claim C3 — refuted by the code: on the `Choice` fast path the
alternative is constructed without passing `strict`
(`cls.components[key](serialized_value=readahead_value)`, types.py line
940), so its content is decoded with the constructor default
`strict=True`.  A lenient read of a single-tagged Boolean alternative with
content byte `0x01` therefore raises instead of decoding to true, even
though `Boolean._decode_value` itself accepts `0x01` leniently. -/
theorem C3_fastpath_strict :
    booleanDecodeValue [1] false = .ok true ∧
      contentDecode .boolean [1] true = .error .malformed ∧
      choiceRead [⟨"b", .boolean⟩] [1, 1, 1] false = .error .malformed := by
  have h1 : contentDecode .boolean [1] true = .error .malformed := by
    simp only [contentDecode]
    rfl
  refine ⟨rfl, h1, ?_⟩
  have hstep : choiceRead [⟨"b", .boolean⟩] [1, 1, 1] false =
      ((contentDecode .boolean [1] true).map fun v => [("b", v)]).map
        fun st => (st, ([1, 1, 1] : List Nat).drop 3) := rfl
  rw [hstep, h1]
  rfl

/-- Claim C4: decoding a `Sequence` attempts a `read` for each field in
declared order; on `TagMismatch` an optional field is filled with its
default and no wire bytes are consumed (the remaining fields read the same
buffer), a mandatory field propagates the failure; a successful read
consumes the field's bytes; and after all declared fields any leftover
bytes are a `MalformedEncoding` failure. -/
theorem C4_sequence_decode (c : Component) (rest : List Component) (buf : List Nat)
    (strict : Bool) :
    (readVal c.value_type buf strict = .error .tagMismatch →
      (c.optionalEff = true →
        seqDecodeValue (c :: rest) buf strict =
          (seqDecodeValue rest buf strict).map fun tail => (c.name, c.default) :: tail) ∧
      (c.optionalEff = false →
        seqDecodeValue (c :: rest) buf strict = .error .tagMismatch)) ∧
    (∀ (v : Value) (buf' : List Nat), readVal c.value_type buf strict = .ok (v, buf') →
      seqDecodeValue (c :: rest) buf strict =
        (seqDecodeValue rest buf' strict).map fun tail => (c.name, some v) :: tail) ∧
    (seqDecodeValue [] buf strict = if buf = [] then .ok [] else .error .malformed) := by
  refine ⟨?_, ?_, rfl⟩
  · intro h
    constructor
    · intro hopt
      simp only [seqDecodeValue]
      rw [h]
      dsimp only
      rw [if_pos hopt]
    · intro hopt
      simp only [seqDecodeValue]
      rw [h]
      dsimp only
      rw [if_neg (by simp [hopt])]
  · intro v buf' h
    simp only [seqDecodeValue]
    rw [h]

/-- Witness for C4: with an empty buffer the Integer field read raises
`TagMismatch`; a defaulted field decodes to its default, a mandatory field
propagates the failure. -/
theorem C4_witness :
    readVal .integer [] true = .error .tagMismatch ∧
      seqDecodeValue [⟨"n", .integer, false, some (.int 0)⟩] [] true =
        .ok [("n", some (.int 0))] ∧
      seqDecodeValue [⟨"m", .integer, false, none⟩] [] true = .error .tagMismatch := by
  have hread : readVal .integer [] true = .error .tagMismatch := rfl
  have h1 := ((C4_sequence_decode ⟨"n", .integer, false, some (.int 0)⟩ [] [] true).1
    hread).1 rfl
  have h2 := ((C4_sequence_decode ⟨"m", .integer, false, none⟩ [] [] true).1
    hread).2 rfl
  refine ⟨hread, ?_, h2⟩
  rw [h1]
  rfl

/-- Claim C9: every `Choice` operation leaves at most one alternative set —
construction from a value, decoding from the wire (readahead and `_read`),
setting an alternative by key (which replaces the whole state), and
deleting an alternative all return a state with at most one entry. -/
theorem C9_choice_invariant (alts : List ChoiceAlt) :
    (∀ (input : List (String × Option Value)) (st : List (String × Value)),
      choiceConvertValue alts input = .ok st → st.length ≤ 1) ∧
    (∀ (buf rValue : List Nat) (rTag : Tag) (strict : Bool)
        (st : List (String × Value)),
      choiceDecodeReadahead alts buf rTag rValue strict = .ok st → st.length ≤ 1) ∧
    (∀ (buf : List Nat) (strict : Bool) (st : List (String × Value)) (rest : List Nat),
      choiceRead alts buf strict = .ok (st, rest) → st.length ≤ 1) ∧
    (∀ (st0 : List (String × Value)) (key : String) (v : Option Value)
        (st : List (String × Value)),
      choiceSetItem alts st0 key v = .ok st → st.length ≤ 1) ∧
    (∀ (st0 : List (String × Value)) (key : String) (st : List (String × Value)),
      st0.length ≤ 1 → choiceDelItem alts st0 key = .ok st → st.length ≤ 1) := by
  have hra : ∀ (buf rValue : List Nat) (rTag : Tag) (strict : Bool)
      (st : List (String × Value)),
      choiceDecodeReadahead alts buf rTag rValue strict = .ok st → st.length ≤ 1 := by
    intro buf rValue rTag strict st h
    unfold choiceDecodeReadahead at h
    cases hl : (choiceTagMap alts).lookup rTag with
    | none => rw [hl] at h; simp at h
    | some key =>
      rw [hl] at h
      dsimp only at h
      cases hf : choiceFind alts key with
      | none => rw [hf] at h; simp at h
      | some alt =>
        rw [hf] at h
        dsimp only at h
        split at h
        · cases hc : contentDecode alt.spec rValue true with
          | error e => rw [hc] at h; simp [Except.map] at h
          | ok v =>
            rw [hc] at h
            simp only [Except.map, Except.ok.injEq] at h
            subst h
            simp
        · cases hr : readVal alt.spec buf strict with
          | error e => rw [hr] at h; simp at h
          | ok p =>
            obtain ⟨v, rest⟩ := p
            rw [hr] at h
            dsimp only at h
            split at h
            · simp only [Except.ok.injEq] at h
              subst h
              simp
            · simp at h
  refine ⟨?_, hra, ?_, ?_, ?_⟩
  · intro input st h
    match input with
    | [] =>
      simp only [choiceConvertValue, Except.ok.injEq] at h
      subst h
      simp
    | [kv] =>
      obtain ⟨k, v⟩ := kv
      unfold choiceConvertValue at h
      cases v with
      | none =>
        simp only [Except.ok.injEq] at h
        subst h
        simp
      | some w =>
        dsimp only at h
        cases hf : choiceFind alts k with
        | none => rw [hf] at h; simp at h
        | some alt =>
          rw [hf] at h
          dsimp only at h
          split at h
          · simp only [Except.ok.injEq] at h
            subst h
            simp
          · simp at h
    | kv1 :: kv2 :: tl =>
      simp only [choiceConvertValue] at h
      exact (Except.noConfusion h)
  · intro buf strict st rest h
    unfold choiceRead at h
    cases ht : tagRead buf with
    | error e => rw [ht] at h; simp at h
    | ok p =>
      obtain ⟨rTag, rest0⟩ := p
      rw [ht] at h
      dsimp only at h
      cases hl : read_length rest0 with
      | error e => rw [hl] at h; simp at h
      | ok q =>
        obtain ⟨len, rest1⟩ := q
        rw [hl] at h
        dsimp only at h
        split at h
        · simp at h
        · cases hd : choiceDecodeReadahead alts
              (buf.take (buf.length - rest1.length + len)) rTag (rest1.take len) strict with
          | error e => rw [hd] at h; simp [Except.map] at h
          | ok st' =>
            rw [hd] at h
            simp only [Except.map, Except.ok.injEq, Prod.mk.injEq] at h
            obtain ⟨rfl, rfl⟩ := h
            exact hra _ _ _ _ _ hd
  · intro st0 key v st h
    unfold choiceSetItem at h
    cases hf : choiceFind alts key with
    | none => rw [hf] at h; simp at h
    | some alt =>
      rw [hf] at h
      dsimp only at h
      cases v with
      | none =>
        simp only [Except.ok.injEq] at h
        subst h
        simp
      | some w =>
        dsimp only at h
        split at h
        · simp only [Except.ok.injEq] at h
          subst h
          simp
        · simp at h
  · intro st0 key st hlen h
    unfold choiceDelItem at h
    split at h
    · simp only [Except.ok.injEq] at h
      subst h
      simp
    · split at h
      · simp at h
      · simp only [Except.ok.injEq] at h
        subst h
        exact hlen

/-- Witness for C9: setting the alternative `b` of a one-alternative
`Choice` yields a singleton state. -/
theorem C9_witness :
    choiceSetItem [⟨"b", Schema.boolean⟩] [] "b" (some (.bool true)) =
        .ok [("b", .bool true)] ∧
      ([("b", Value.bool true)] : List (String × Value)).length ≤ 1 := by
  refine ⟨rfl, ?_⟩
  exact (C9_choice_invariant [⟨"b", Schema.boolean⟩]).2.2.2.1 [] "b"
    (some (.bool true)) [("b", .bool true)] rfl

/-- Claim C10: for a tagged schema, `read` on a buffer shorter than the
outermost tag's bytes raises `TagMismatch` (not `MalformedEncoding`);
consequently a `Sequence` whose remaining wire bytes have run out treats
every remaining optional field as absent and fills it with its default. -/
theorem C10_short_buffer :
    (∀ (s : Schema) (buf : List Nat) (strict : Bool),
      buf.length < ((s.tags.getLastD ⟨0, 0, false⟩).value).length →
      readVal s buf strict = .error .tagMismatch) ∧
    (∀ (comps : List Component) (strict : Bool), (∀ c ∈ comps, c.optionalEff = true) →
      seqDecodeValue comps [] strict = .ok (comps.map fun c => (c.name, c.default))) := by
  have h1 : ∀ (s : Schema) (buf : List Nat) (strict : Bool),
      buf.length < ((s.tags.getLastD ⟨0, 0, false⟩).value).length →
      readVal s buf strict = .error .tagMismatch := by
    intro s buf strict hlen
    rw [Tag.value_length] at hlen
    have hbuf : buf = [] := by
      cases buf with
      | nil => rfl
      | cons a l => simp at hlen
    subst hbuf
    unfold readVal readFrame
    cases hrev : s.tags.reverse with
    | nil => exact absurd (List.reverse_eq_nil_iff.mp hrev) (Schema.tags_ne_nil s)
    | cons t ts =>
      unfold readTagsLoop readTagStep
      rw [if_pos (by simp [Tag.value])]
  refine ⟨h1, ?_⟩
  intro comps
  induction comps with
  | nil =>
    intro strict _
    simp [seqDecodeValue]
  | cons c rest ih =>
    intro strict hopt
    have hc := hopt c (by simp)
    simp only [seqDecodeValue]
    rw [h1 c.value_type [] strict (by rw [Tag.value_length]; simp)]
    dsimp only
    rw [if_pos hc]
    rw [ih strict fun d hd => hopt d (by simp [hd])]
    rfl

/-- Witness for C10: an empty buffer is shorter than the Boolean tag and
read fails with `TagMismatch`; a sequence of one truly-optional and one
defaulted field decodes from the empty buffer to its defaults. -/
theorem C10_witness :
    (([] : List Nat)).length <
        ((Schema.boolean.tags.getLastD ⟨0, 0, false⟩).value).length ∧
      readVal .boolean [] true = .error .tagMismatch ∧
      seqDecodeValue [⟨"n", .integer, true, none⟩, ⟨"m", .integer, false, some (.int 7)⟩]
        [] true = .ok [("n", none), ("m", some (.int 7))] := by
  refine ⟨by rw [Tag.value_length]; simp,
    C10_short_buffer.1 .boolean [] true (by rw [Tag.value_length]; simp), ?_⟩
  have h := C10_short_buffer.2
    [⟨"n", .integer, true, none⟩, ⟨"m", .integer, false, some (.int 7)⟩] true ?hopt
  · rw [h]
    rfl
  case hopt =>
    intro c hc
    simp only [List.mem_cons, List.mem_singleton] at hc
    rcases hc with rfl | rfl | hc
    · rfl
    · rfl
    · simp at hc
